import Mathlib

/-!
# Verification of the qbsdiff diff/patch engine

Shallow embedding of the qbsdiff sources (`src/utils.rs`, `src/bsdiff.rs`,
`src/bspatch.rs`) into Lean 4, together with proofs settling the frozen
claims about the natural-language specification.

Machine integers are modelled as `Nat`/`Int` with explicit wrapping
(`% 2^64`) where the Rust code wraps.  Byte sequences are `List Nat` with
each entry `< 256` where byte-ness matters.  Fallible code returns
`Except`/`Option`.  The external collaborators (the suffix array and the
bzip2 codec) are abstract parameters constrained by the contracts the
specification gives for them.
-/

namespace Qbsdiff

/-- `2^64`, the modulus of `u64`/`usize` arithmetic. -/
def U64 : Nat := 18446744073709551616

/-- `2^63`, the `i64` sign boundary. -/
def I64H : Nat := 9223372036854775808

/-- Reinterpret a `u64` value (a `Nat < 2^64`) as an `i64` (two's complement). -/
def toI64 (x : Nat) : Int :=
  if x < I64H then (x : Int) else (x : Int) - (U64 : Int)

/-- `u64::wrapping_sub` on `Nat` representatives. -/
def wrapSub (a b : Nat) : Nat :=
  (((a : Int) - (b : Int)) % (U64 : Int)).toNat

/-- `u64::wrapping_add` on `Nat` representatives. -/
def wrapAdd (a b : Nat) : Nat :=
  (a + b) % U64

/-- An `i64` reinterpreted `as u64` (the Rust cast). -/
def i64AsU64 (x : Int) : Nat :=
  (x % (U64 : Int)).toNat

/-- `usize::saturating_add`. -/
def satAdd (a b : Nat) : Nat :=
  min (a + b) (U64 - 1)

/-- Little-endian read of the first 8 bytes of a buffer
(`byteorder::LE::read_u64`, as used by `decode_int` in `src/utils.rs`). -/
def leReadU64 (b : List Nat) : Nat :=
  (b.take 8).foldr (fun byte acc => byte % 256 + 256 * acc) 0

/-- Little-endian 8-byte write of a `u64` value
(`byteorder::LE::write_u64`). -/
def leWriteU64 (x : Nat) : List Nat :=
  [x % 256, x / 256 % 256, x / 256 ^ 2 % 256, x / 256 ^ 3 % 256,
   x / 256 ^ 4 % 256, x / 256 ^ 5 % 256, x / 256 ^ 6 % 256, x / 256 ^ 7 % 256]

/-- `decode_int` from `src/utils.rs`:
```rust
let x = LE::read_u64(b);
if x >> 63 == 0 || x == 0x8000000000000000 {
    x as i64
} else {
    ((x & 0x7fffffffffffffff) as i64).wrapping_neg()
}
``` -/
def decode_int (b : List Nat) : Int :=
  let x := leReadU64 b
  if x >>> 63 = 0 ∨ x = 9223372036854775808 then
    toI64 x
  else
    -(((x &&& 9223372036854775807) : Nat) : Int)

/-- `encode_int` from `src/utils.rs`:
```rust
if x < 0 {
    LE::write_u64(b, x.wrapping_neg() as u64 | 0x8000000000000000);
} else {
    LE::write_u64(b, x as u64);
}
```
The result is the 8-byte buffer that the Rust function fills. -/
def encode_int (x : Int) : List Nat :=
  if x < 0 then
    leWriteU64 ((i64AsU64 (-x)) ||| 9223372036854775808)
  else
    leWriteU64 (i64AsU64 x)

/-! ## Lemmas about the integer codec -/

theorem leReadU64_leWriteU64 (x : Nat) : leReadU64 (leWriteU64 x) = x % U64 := by
  simp only [leWriteU64, leReadU64, List.take, List.foldr, U64]
  omega

theorem lor_high_bit {m : Nat} (h : m < 9223372036854775808) :
    m ||| 9223372036854775808 = m + 9223372036854775808 := by
  have hm : m < 2 ^ 63 := by omega
  have h1 := Nat.mul_add_lt_is_or (i := 63) (a := 1) hm
  have h2 : (9223372036854775808 : Nat) = 2 ^ 63 * 1 := by norm_num
  rw [h2, Nat.lor_comm, ← h1]
  omega

theorem land_low_mask (v : Nat) :
    v &&& 9223372036854775807 = v % 9223372036854775808 := by
  have : (9223372036854775807 : Nat) = 2 ^ 63 - 1 := by norm_num
  rw [this, Nat.and_pow_two_sub_one_eq_mod]

theorem shiftR63_eq (v : Nat) : v >>> 63 = v / 9223372036854775808 := by
  rw [Nat.shiftRight_eq_div_pow]

/-- The byte buffer whose only set bit is the sign bit:
`00 00 00 00 00 00 00 80` in little-endian order. -/
def signOnlyBytes : List Nat := [0, 0, 0, 0, 0, 0, 0, 128]

theorem i64AsU64_nonneg {x : Int} (h0 : 0 ≤ x) (h1 : x < (U64 : Int)) :
    i64AsU64 x = x.toNat := by
  unfold i64AsU64 U64
  simp only [U64] at h1
  push_cast
  push_cast at h1
  omega

theorem decode_int_encode_int (x : Int)
    (h1 : -(9223372036854775807 : Int) ≤ x) (h2 : x ≤ 9223372036854775807) :
    decode_int (encode_int x) = x := by
  unfold encode_int
  by_cases hx : x < 0
  · rw [if_pos hx]
    have hm0 : (0 : Int) ≤ -x := by omega
    have hm1 : -x < (U64 : Int) := by unfold U64; omega
    rw [i64AsU64_nonneg hm0 hm1]
    set m := (-x).toNat with hmdef
    have hmlt : m < 9223372036854775808 := by omega
    have hm1' : 1 ≤ m := by omega
    rw [lor_high_bit hmlt]
    simp only [decode_int, leReadU64_leWriteU64]
    have hv : (m + 9223372036854775808) % U64 = m + 9223372036854775808 := by
      unfold U64; omega
    rw [hv]
    rw [shiftR63_eq]
    have hd : (m + 9223372036854775808) / 9223372036854775808 = 1 := by omega
    rw [hd]
    have hcond : ¬(1 = 0 ∨ m + 9223372036854775808 = 9223372036854775808) := by omega
    rw [if_neg hcond, land_low_mask]
    have : (m + 9223372036854775808) % 9223372036854775808 = m := by omega
    rw [this]
    omega
  · rw [if_neg hx]
    have h0 : (0 : Int) ≤ x := by omega
    have hlt : x < (U64 : Int) := by unfold U64; omega
    rw [i64AsU64_nonneg h0 hlt]
    simp only [decode_int, leReadU64_leWriteU64]
    have hv : x.toNat % U64 = x.toNat := by unfold U64; omega
    rw [hv, shiftR63_eq]
    have hd : x.toNat / 9223372036854775808 = 0 := by omega
    rw [hd]
    rw [if_pos (Or.inl rfl)]
    unfold toI64 I64H
    rw [if_pos (by omega)]
    omega

/-- C3 (counterexample): the claim says the 8-byte buffer
`00 00 00 00 00 00 00 80` (only the sign bit set) decodes via `decode_int`
to the numerical value 0.  In the code, that buffer reads as
`x = 0x8000000000000000`, takes the `x as i64` branch and decodes to
`i64::MIN = -2^63`, which is not 0. -/
theorem decode_signOnly_not_zero :
    decode_int signOnlyBytes = -9223372036854775808 ∧
      decode_int signOnlyBytes ≠ 0 := by
  decide

/-- C3 (amended): the sign-bit-only buffer decodes via `decode_int` to
`i64::MIN = -2^63` (not 0), and re-encoding that decoded value with
`encode_int` round-trips to the same 8 bytes. -/
theorem decode_signOnly_is_i64_min_and_roundtrips :
    decode_int signOnlyBytes = -9223372036854775808 ∧
      encode_int (decode_int signOnlyBytes) = signOnlyBytes := by
  decide

/-- C4: for every integer `x ∈ [-(2^63-1), 2^63-1]`, `decode_int` applied to
the 8-byte buffer produced by `encode_int x` yields `x`. -/
theorem integer_codec_roundtrip (x : Int)
    (h1 : -(9223372036854775807 : Int) ≤ x) (h2 : x ≤ 9223372036854775807) :
    decode_int (encode_int x) = x :=
  decode_int_encode_int x h1 h2

/-- Witness for C4 at the concrete input `x = -5`. -/
theorem integer_codec_roundtrip_witness :
    (-(9223372036854775807 : Int) ≤ -5 ∧ (-5 : Int) ≤ 9223372036854775807) ∧
      decode_int (encode_int (-5)) = -5 :=
  ⟨by norm_num, integer_codec_roundtrip (-5) (by norm_num) (by norm_num)⟩

/-! ## The patch header parser (`parse` in `src/bspatch.rs`) -/

/-- The ASCII bytes of `"BSDIFF40"`. -/
def magicBytes : List Nat := [66, 83, 68, 73, 70, 70, 52, 48]

/-- The sections of a parsed patch file (`PatchFile` in `src/bspatch.rs`). -/
structure PatchFile where
  tsize : Nat
  bz_ctrls : List Nat
  bz_delta : List Nat
  bz_extra : List Nat
deriving DecidableEq

/-- Outcome of `parse`: an `InvalidData` error, a panic, or success.
`panicked` models the `slice::split_at` out-of-bounds panic that release
builds hit when the wrapped size sum passes the length check (debug builds
panic earlier, at the overflowing `32 + csize + dsize` addition). -/
inductive ParseResult where
  | invalidData
  | panicked
  | ok (pf : PatchFile)
deriving DecidableEq

/-- `parse` from `src/bspatch.rs`:
```rust
if patch.len() < 32 || &patch[..8] != b"BSDIFF40" {
    return Err(Error::new(ErrorKind::InvalidData, "not a valid patch"));
}
let csize = decode_int(&patch[8..16]) as u64;
let dsize = decode_int(&patch[16..24]) as u64;
let tsize = decode_int(&patch[24..32]) as u64;
if 32 + csize + dsize > patch.len() as u64 {
    return Err(Error::new(ErrorKind::InvalidData, "patch corrupted"));
}
let (_, remain) = patch.split_at(32);
let (bz_ctrls, remain) = remain.split_at(csize as usize);
let (bz_delta, bz_extra) = remain.split_at(dsize as usize);
```
The `32 + csize + dsize` additions are `u64` additions (wrapping in release
builds, modelled by `wrapAdd`); `split_at` panics when its argument exceeds
the slice length. -/
def parse (patch : List Nat) : ParseResult :=
  if patch.length < 32 ∨ patch.take 8 ≠ magicBytes then
    .invalidData
  else
    let csize := i64AsU64 (decode_int (patch.drop 8))
    let dsize := i64AsU64 (decode_int (patch.drop 16))
    let tsize := i64AsU64 (decode_int (patch.drop 24))
    if wrapAdd (wrapAdd 32 csize) dsize > patch.length then
      .invalidData
    else
      let remain := patch.drop 32
      if csize > remain.length then
        .panicked
      else
        let bz_ctrls := remain.take csize
        let remain2 := remain.drop csize
        if dsize > remain2.length then
          .panicked
        else
          .ok ⟨tsize, bz_ctrls, remain2.take dsize, remain2.drop dsize⟩

/-- A 32-byte patch whose magic is valid but whose `csize` field holds the
encoding of `-1`: it passes the wrapped length check and then panics in
`split_at`. -/
def c5FailingPatch : List Nat :=
  magicBytes ++ encode_int (-1) ++ encode_int 0 ++ encode_int 0

/-- C5 (code bug evaluation): on a 32-byte patch with valid magic whose
declared control size decodes to `-1`, `parse` does not fail with
`InvalidData` — the wrapped check `32 + csize + dsize > patch.len()`
evaluates to `31 > 32` and passes, and `split_at(csize as usize)` panics.
This contradicts the claim that header parsing either succeeds or fails
with `InvalidData` and never panics on size fields decoding to negative
values. -/
theorem parse_panics_on_negative_size :
    parse c5FailingPatch = ParseResult.panicked := by
  decide

/-! ## Configuration (`Bsdiff` builder in `src/bsdiff.rs`) -/

/-- `MAX_LENGTH` re-exported from the external `suffix_array` crate; the
spec fixes it as `2^32 - 1` ("the suffix-array upper bound"). -/
def MAX_LENGTH : Nat := 4294967295

/-- Default threshold to determine small exact match. -/
def SMALL_MATCH : Nat := 12

/-- Default threshold to determine mismatch. -/
def MISMATCH_COUNT : Nat := 8

/-- Default threshold to enable binary search on suffixing similar bytes. -/
def LONG_SUFFIX : Nat := 256

/-- Default buffer size for delta calculation. -/
def BUFFER_SIZE : Nat := 4096

/-- Default bzip2 compression level. -/
def COMPRESSION_LEVEL : Nat := 6

/-- Min chunk size of each parallel job. -/
def MIN_CHUNK : Nat := 262144

/-- Default chunk size of each parallel job (`ParallelScheme::Auto`). -/
def DEFAULT_CHUNK : Nat := 524288

/-- `ParallelScheme` from `src/bsdiff.rs`. -/
inductive ParallelScheme where
  | Never
  | Auto
  | ChunkSize (k : Nat)
  | NumJobs (j : Nat)
deriving DecidableEq

/-- The configuration fields of the `Bsdiff` builder struct. -/
structure BsdiffConfig where
  parallel_scheme : ParallelScheme
  small_match : Nat
  mismatch_count : Nat
  long_suffix : Nat
  buffer_size : Nat
  compression_level : Nat
deriving DecidableEq

/-- The configuration installed by `Bsdiff::new` (after its length guard). -/
def defaultConfig : BsdiffConfig :=
  { parallel_scheme := .Auto
    small_match := SMALL_MATCH
    mismatch_count := MISMATCH_COUNT
    long_suffix := LONG_SUFFIX
    buffer_size := BUFFER_SIZE
    compression_level := COMPRESSION_LEVEL }

/-- `Bsdiff::new`: panics (`none`) when the source is longer than
`MAX_LENGTH`, otherwise yields the default configuration. -/
def bsdiffNew (source : List Nat) : Option BsdiffConfig :=
  if source.length > MAX_LENGTH then none else some defaultConfig

/-- `Bsdiff::parallel_scheme`: `ChunkSize(0)` and `NumJobs(0)` are coerced
to `Auto`. -/
def setParallelScheme (c : BsdiffConfig) (p : ParallelScheme) : BsdiffConfig :=
  { c with parallel_scheme :=
      if p = .ChunkSize 0 ∨ p = .NumJobs 0 then .Auto else p }

/-- `Bsdiff::small_match` (no clamping). -/
def setSmallMatch (c : BsdiffConfig) (v : Nat) : BsdiffConfig :=
  { c with small_match := v }

/-- `Bsdiff::mismatch_count`: values below 1 are raised to 1. -/
def setMismatchCount (c : BsdiffConfig) (v : Nat) : BsdiffConfig :=
  { c with mismatch_count := if v < 1 then 1 else v }

/-- `Bsdiff::long_suffix`: values below 64 are raised to 64. -/
def setLongSuffix (c : BsdiffConfig) (v : Nat) : BsdiffConfig :=
  { c with long_suffix := if v < 64 then 64 else v }

/-- `Bsdiff::compression_level`: `Compression::new(min(max(level, 0), 9))`. -/
def setCompressionLevel (c : BsdiffConfig) (v : Nat) : BsdiffConfig :=
  { c with compression_level := min (max v 0) 9 }

/-- `Bsdiff::buffer_size`: values below 128 are raised to 128. -/
def setBufferSize (c : BsdiffConfig) (v : Nat) : BsdiffConfig :=
  { c with buffer_size := if v < 128 then 128 else v }

/-! ## Similarity scoring (`scan_similar`, `scan_divide`) -/

/-- Single bsdiff control instruction (`Control` in `src/utils.rs`). -/
structure Control where
  add : Nat
  copy : Nat
  seek : Int
deriving DecidableEq, Repr

/-- Rust slice `&l[a..b]`. -/
def sliceRange (l : List Nat) (a b : Nat) : List Nat :=
  (l.take b).drop a

/-- The accumulator loop of `scan_similar`, walking the zipped iterators:
`n` pairs seen so far, `matched` of them equal, `maxScore`/`i` the best
strictly-positive score and the smallest length achieving it.  The score is
`matched.wrapping_sub(mismatched) as isize`. -/
def scanSimilarGo : List (Nat × Nat) → Nat → Nat → Int → Nat → Nat
  | [], _, _, _, i => i
  | (x, y) :: rest, n, matched, maxScore, i =>
      let n' := n + 1
      let matched' := if x = y then matched + 1 else matched
      let mismatched := n' - matched'
      let score := toI64 (wrapSub matched' mismatched)
      if maxScore < score then scanSimilarGo rest n' matched' score n'
      else scanSimilarGo rest n' matched' maxScore i

/-- `scan_similar` from `src/bsdiff.rs`. -/
def scan_similar (xs ys : List Nat) : Nat :=
  scanSimilarGo (xs.zip ys) 0 0 0 0

/-- The accumulator loop of `scan_divide` over `xs.zip(ys).zip(zs)`. -/
def scanDivideGo : List ((Nat × Nat) × Nat) → Nat → Nat → Nat → Int → Nat → Nat
  | [], _, _, _, _, i => i
  | ((x, y), z) :: rest, n, ym, zm, maxScore, i =>
      let n' := n + 1
      let ym' := if x = y then ym + 1 else ym
      let zm' := if x = z then zm + 1 else zm
      let score := toI64 (wrapSub ym' zm')
      if maxScore < score then scanDivideGo rest n' ym' zm' score n'
      else scanDivideGo rest n' ym' zm' maxScore i

/-- `scan_divide` from `src/bsdiff.rs`. -/
def scan_divide (xs ys zs : List Nat) : Nat :=
  scanDivideGo ((xs.zip ys).zip zs) 0 0 0 0 0

/-! ## The match walker (`SaDiff` in `src/bsdiff.rs`) -/

/-- The persistent matcher state `(i0, j0, n0, b0)` of `SaDiff`. -/
structure SaState where
  i0 : Nat
  j0 : Nat
  n0 : Nat
  b0 : Nat
deriving DecidableEq, Repr

/-- The search context: source, target, the abstract suffix-array LCP
query (already composed with `range_to_extent`, so it returns the extent
`(i, n)`), and the three thresholds. -/
structure SaCtx where
  s : List Nat
  t : List Nat
  sl : List Nat → Nat × Nat
  small_match : Nat
  mismatch_count : Nat
  long_suffix : Nat

/-- The contract of the external suffix index (spec §6): `search_lcp(q)`
returns a position `i ≤ |S|` and length `n ≤ min(|S|-i, |q|)` such that
`S[i..i+n] = q[..n]` and `n` is maximal among all positions. -/
structure SearchLcpSpec (s : List Nat) (sl : List Nat → Nat × Nat) : Prop where
  pos_le : ∀ q, (sl q).1 ≤ s.length
  len_le_rem : ∀ q, (sl q).1 + (sl q).2 ≤ s.length
  len_le_q : ∀ q, (sl q).2 ≤ q.length
  match_eq : ∀ q, (s.drop (sl q).1).take (sl q).2 = q.take (sl q).2
  maximal : ∀ q p k, p + k ≤ s.length → k ≤ q.length →
    (s.drop p).take k = q.take k → k ≤ (sl q).2

/-- The `while k < j + n` loop of `search_next`, structurally recursive on
the iteration count `bound - k` (the loop increments `k` once per
iteration, so that fuel is exact): counts into `m` the positions `k` where
continuing the previous anchor's extrapolation into S still matches T. -/
def countLoopGo (ctx : SaCtx) (i0 j0 bound : Nat) :
    Nat → Nat → Nat → Nat × Nat
  | 0, k, m => (k, m)
  | fuel + 1, k, m =>
    if k < bound then
      let i := satAdd i0 (k - j0)
      let m' := if i < ctx.s.length ∧ ctx.s.getD i 0 = ctx.t.getD k 0
                then m + 1 else m
      countLoopGo ctx i0 j0 bound fuel (k + 1) m'
    else (k, m)

/-- `while k < j + n { ... k += 1 }`. -/
def countLoop (ctx : SaCtx) (i0 j0 : Nat) (bound : Nat) (k m : Nat) :
    Nat × Nat :=
  countLoopGo ctx i0 j0 bound (bound - k) k m

/-- The binary search (`while x < y`) in the long-suffix skip branch,
structurally recursive on the interval width `y - x` (each iteration
shrinks the interval by at least one, so that fuel suffices). -/
def bsearchLoopGo (ctx : SaCtx) (i n j : Nat) : Nat → Nat → Nat → Nat
  | 0, x, _ => x
  | fuel + 1, x, y =>
    if x < y then
      let z := x + (y - x) / 2
      let iznz := ctx.sl (ctx.t.drop (j + z))
      if i + n = iznz.1 + iznz.2 ∧ j + n = j + z + iznz.2 then
        bsearchLoopGo ctx i n j fuel (z + 1) y
      else
        bsearchLoopGo ctx i n j fuel x z
    else x

/-- `while x < y { ... }` of the binary-search skip. -/
def bsearchLoop (ctx : SaCtx) (i n j : Nat) (x y : Nat) : Nat :=
  bsearchLoopGo ctx i n j (y - x) x y

/-- The `while j < next` decrement loop of the skip branch, structurally
recursive on `next - j` (the loop increments `j` once per iteration).  The
loop leaves `j = next` (it is entered with `j < next`); only the final `m`
is returned.  `m - 1` is the `usize` decrement (underflow-freedom is the
subject of a separate instrumented development). -/
def decLoopGo (ctx : SaCtx) (next : Nat) : Nat → Nat → Nat → Nat → Nat
  | 0, _, _, m => m
  | fuel + 1, i, j, m =>
    if j < next then
      let m' := if i < ctx.s.length ∧ ctx.s.getD i 0 = ctx.t.getD j 0
                then m - 1 else m
      decLoopGo ctx next fuel (i + 1) (j + 1) m'
    else m

/-- `while j < next { ... j += 1 }`. -/
def decLoop (ctx : SaCtx) (next : Nat) (i j m : Nat) : Nat :=
  decLoopGo ctx next (next - j) i j m

/-- The main `while j < t.len() - small_match` loop of `search_next`,
structurally recursive on `t.len() - j` (every iteration advances `j` by
at least one, so that fuel suffices; when the fuel runs out, `j ≥ |T|` and
the loop condition is false, so the fuel-out value is the loop's own
fall-through value), returning the next anchor `(i, j, n)` (or the
synthetic terminal anchor `(|S|, |T|, 0)` if the loop runs off the end). -/
def searchLoopGo (ctx : SaCtx) (i0 j0 : Nat) :
    Nat → Nat → Nat → Nat → Nat × Nat × Nat
  | 0, _, _, _ => (ctx.s.length, ctx.t.length, 0)
  | fuel + 1, j, k, m =>
    if j < ctx.t.length - ctx.small_match then
      let inn := ctx.sl (ctx.t.drop j)
      let i := inn.1
      let n := inn.2
      let km' := countLoop ctx i0 j0 (j + n) k m
      let k' := km'.1
      let m' := km'.2
      if n = 0 then
        searchLoopGo ctx i0 j0 fuel (j + 1) k' 0
      else if m' = n ∨ n ≤ ctx.small_match then
        searchLoopGo ctx i0 j0 fuel (j + n) k' 0
      else if n ≤ m' + ctx.mismatch_count then
        let next := if n ≤ ctx.long_suffix then j + 1
                    else j + max (bsearchLoop ctx i n j 0 n) 1
        let m2 := decLoop ctx next (satAdd i0 (j - j0)) j m'
        searchLoopGo ctx i0 j0 fuel next k' m2
      else (i, j, n)
    else (ctx.s.length, ctx.t.length, 0)

/-- `while j < t.len() - small_match { ... }` of `search_next`. -/
def searchLoop (ctx : SaCtx) (i0 j0 : Nat) (j k m : Nat) :
    Nat × Nat × Nat :=
  searchLoopGo ctx i0 j0 (ctx.t.length - j) j k m

/-- `SaDiff::search_next`. -/
def search_next (ctx : SaCtx) (st : SaState) : Option (Nat × Nat × Nat) :=
  if st.j0 = ctx.t.length ∧ st.b0 = 0 then none
  else some (searchLoop ctx st.i0 st.j0 (st.j0 + st.n0) (st.j0 + st.n0) 0)

/-- `SaDiff::shrink_gap`. -/
def shrink_gap (ctx : SaCtx) (st : SaState) (i j : Nat) : Nat × Nat :=
  let gap := sliceRange ctx.t (st.j0 + st.n0) j
  let suffix := ctx.s.drop (st.i0 + st.n0)
  let pre := ctx.s.take i
  let a0 := scan_similar gap suffix
  let b := scan_similar gap.reverse pre.reverse
  if gap.length < a0 + b then
    let n := a0 + b - gap.length
    let xs := sliceRange gap (gap.length - b) a0
    let ys := sliceRange suffix (gap.length - b) a0
    let zs := sliceRange pre (pre.length - b) (pre.length - b + n)
    let idx := scan_divide xs ys zs
    (a0 - (n - idx), b - idx)
  else (a0, b)

/-- One step of the `Iterator for SaDiff` implementation: the emitted
control and the updated state. -/
def saNext (ctx : SaCtx) (st : SaState) : Option (Control × SaState) :=
  match search_next ctx st with
  | none => none
  | some (i, j, n) =>
    let a0b := shrink_gap ctx st i j
    let a0 := a0b.1
    let b := a0b.2
    let add := st.b0 + st.n0 + a0
    let copy := (j - b) - (st.j0 + st.n0 + a0)
    let seek := toI64 (wrapSub (i - b) (st.i0 + st.n0 + a0))
    some (⟨add, copy, seek⟩, ⟨i, j, n, b⟩)

/-- The walker's control stream, driven by fuel (the stream is finite;
`t.length + 2` fuel is shown sufficient below). -/
def saRun (ctx : SaCtx) : Nat → SaState → List Control
  | 0, _ => []
  | fuel + 1, st =>
    match saNext ctx st with
    | none => []
    | some (c, st') => c :: saRun ctx fuel st'

/-- The full control stream of one `SaDiff` walker from the initial
all-zero state (the iterator is drained to `None`; `2 * |T| + 2` fuel is
shown sufficient by the termination measure `stMeasure`). -/
def saControls (ctx : SaCtx) : List Control :=
  saRun ctx (2 * ctx.t.length + 2) ⟨0, 0, 0, 0⟩

/-! ## Bounds for the similarity scans and the gap shrink -/

theorem scanSimilarGo_le (l : List (Nat × Nat)) :
    ∀ n matched ms i, i ≤ n → scanSimilarGo l n matched ms i ≤ n + l.length := by
  induction l with
  | nil => intro n matched ms i h; simpa [scanSimilarGo] using h.trans (Nat.le_add_right n 0)
  | cons p rest ih =>
    intro n matched ms i h
    obtain ⟨x, y⟩ := p
    simp only [scanSimilarGo]
    split
    all_goals split
    all_goals first
      | exact le_trans (ih (n + 1) _ _ (n + 1) le_rfl)
          (by simp only [List.length_cons]; omega)
      | exact le_trans (ih (n + 1) _ _ i (h.trans (Nat.le_succ n)))
          (by simp only [List.length_cons]; omega)

theorem scan_similar_le (xs ys : List Nat) :
    scan_similar xs ys ≤ xs.length ∧ scan_similar xs ys ≤ ys.length := by
  have h := scanSimilarGo_le (xs.zip ys) 0 0 0 0 le_rfl
  rw [List.length_zip] at h
  unfold scan_similar
  omega

theorem scanDivideGo_le (l : List ((Nat × Nat) × Nat)) :
    ∀ n ym zm ms i, i ≤ n → scanDivideGo l n ym zm ms i ≤ n + l.length := by
  induction l with
  | nil => intro n ym zm ms i h; simpa [scanDivideGo] using h.trans (Nat.le_add_right n 0)
  | cons p rest ih =>
    intro n ym zm ms i h
    obtain ⟨⟨x, y⟩, z⟩ := p
    simp only [scanDivideGo]
    split
    all_goals split
    all_goals split
    all_goals first
      | exact le_trans (ih (n + 1) _ _ _ (n + 1) le_rfl)
          (by simp only [List.length_cons]; omega)
      | exact le_trans (ih (n + 1) _ _ _ i (h.trans (Nat.le_succ n)))
          (by simp only [List.length_cons]; omega)

theorem sliceRange_length (l : List Nat) (a b : Nat) :
    (sliceRange l a b).length = min b l.length - a := by
  simp [sliceRange]

/-- Postcondition of `shrink_gap`: the two similar extensions fit inside
the gap, the forward extension stays inside the source suffix, and the
backward extension stays inside the source prefix. -/
theorem shrink_gap_spec (ctx : SaCtx) (st : SaState) (i j : Nat)
    (hij : st.j0 + st.n0 ≤ j) (hjt : j ≤ ctx.t.length)
    (his : st.i0 + st.n0 ≤ ctx.s.length) (hi : i ≤ ctx.s.length) :
    (shrink_gap ctx st i j).1 + (shrink_gap ctx st i j).2 ≤ j - (st.j0 + st.n0) ∧
      st.i0 + st.n0 + (shrink_gap ctx st i j).1 ≤ ctx.s.length ∧
      (shrink_gap ctx st i j).2 ≤ i := by
  simp only [shrink_gap]
  have hgaplen : (sliceRange ctx.t (st.j0 + st.n0) j).length = j - (st.j0 + st.n0) := by
    rw [sliceRange_length]; omega
  have hsuflen : (ctx.s.drop (st.i0 + st.n0)).length = ctx.s.length - (st.i0 + st.n0) := by
    simp
  have hprelen : (ctx.s.take i).length = i := by
    simp; omega
  have ha := scan_similar_le (sliceRange ctx.t (st.j0 + st.n0) j)
    (ctx.s.drop (st.i0 + st.n0))
  have hb := scan_similar_le (sliceRange ctx.t (st.j0 + st.n0) j).reverse
    (ctx.s.take i).reverse
  rw [hgaplen, hsuflen] at ha
  rw [List.length_reverse, List.length_reverse, hgaplen, hprelen] at hb
  split
  · simp only
    omega
  · simp only
    omega

theorem bsearchLoopGo_le (ctx : SaCtx) (i n j : Nat) :
    ∀ (fuel x y : Nat), x ≤ y → bsearchLoopGo ctx i n j fuel x y ≤ y := by
  intro fuel
  induction fuel with
  | zero =>
    intro x y h
    simpa [bsearchLoopGo] using h
  | succ fuel ih =>
    intro x y h
    by_cases hxy : x < y
    · simp only [bsearchLoopGo]
      rw [if_pos hxy]
      split
      · exact ih (x + (y - x) / 2 + 1) y (by omega)
      · exact le_trans (ih x (x + (y - x) / 2) (by omega)) (by omega)
    · simp only [bsearchLoopGo]
      rw [if_neg hxy]
      exact h

/-- The binary-search skip never returns more than its upper bound. -/
theorem bsearchLoop_le (ctx : SaCtx) (i n j : Nat) (x y : Nat) (h : x ≤ y) :
    bsearchLoop ctx i n j x y ≤ y :=
  bsearchLoopGo_le ctx i n j (y - x) x y h


def SearchPost (ctx : SaCtx) (j : Nat) (r : Nat × Nat × Nat) : Prop :=
  r.1 ≤ ctx.s.length ∧ r.1 + r.2.2 ≤ ctx.s.length ∧ j ≤ r.2.1 ∧
    r.2.1 + r.2.2 ≤ ctx.t.length ∧
    (r = (ctx.s.length, ctx.t.length, 0) ∨ (1 ≤ r.2.2 ∧ r.2.1 < ctx.t.length))

theorem SearchPost.mono {ctx : SaCtx} {j j' : Nat} {r : Nat × Nat × Nat}
    (h : SearchPost ctx j' r) (hjj : j ≤ j') : SearchPost ctx j r :=
  ⟨h.1, h.2.1, le_trans hjj h.2.2.1, h.2.2.2⟩

theorem sl_len_le (ctx : SaCtx) (hsl : SearchLcpSpec ctx.s ctx.sl) (j : Nat) :
    (ctx.sl (ctx.t.drop j)).2 ≤ ctx.t.length - j := by
  have := hsl.len_le_q (ctx.t.drop j)
  simpa using this

theorem searchLoopGo_post (ctx : SaCtx) (hsl : SearchLcpSpec ctx.s ctx.sl)
    (i0 j0 : Nat) (fuel j k m : Nat) (hj : j ≤ ctx.t.length) :
    SearchPost ctx j (searchLoopGo ctx i0 j0 fuel j k m) := by
  induction fuel, j, k, m using searchLoopGo.induct ctx i0 j0 with
  | case1 j k m =>
    rw [searchLoopGo]
    refine ⟨le_rfl, by simp, by simpa using hj, by simp, Or.inl rfl⟩
  | case2 fuel j k m hguard inn n km' m' hn ih =>
    unfold_let n inn km' at hn ih
    rw [searchLoopGo, if_pos hguard]
    simp only []
    rw [if_pos hn]
    exact (ih (by omega)).mono (by omega)
  | case3 fuel j k m hguard inn n km' k' m' hn hcond ih =>
    unfold_let m' k' n inn km' at hn hcond ih
    have hnle := sl_len_le ctx hsl j
    rw [searchLoopGo, if_pos hguard]
    simp only []
    rw [if_neg hn, if_pos hcond]
    exact (ih (by omega)).mono (by omega)
  | case4 fuel j k m hguard inn i n km' k' m' hn hcond hmis next m2 ih =>
    have hb := bsearchLoop_le ctx inn.1 n j 0 n (Nat.zero_le n)
    have hnle := sl_len_le ctx hsl j
    have hnext : j + 1 ≤ next ∧ next ≤ ctx.t.length := by
      unfold_let next
      split
      · omega
      · unfold_let i n inn at hn hb hnle ⊢
        constructor
        · omega
        · have : max (bsearchLoop ctx (ctx.sl (List.drop j ctx.t)).1
            (ctx.sl (List.drop j ctx.t)).2 j 0 (ctx.sl (List.drop j ctx.t)).2) 1 ≤
              (ctx.sl (List.drop j ctx.t)).2 := by omega
          omega
    unfold_let m2 at ih
    unfold_let next at hnext ih
    unfold_let m' at hn hcond hmis ih
    unfold_let k' at ih
    unfold_let km' at hn hcond hmis ih
    unfold_let i at hnext ih
    unfold_let n at hn hcond hmis hnext ih
    unfold_let inn at hn hcond hmis hnext ih
    rw [searchLoopGo, if_pos hguard]
    simp only []
    rw [if_neg hn, if_neg hcond, if_pos hmis]
    refine (ih ?_).mono ?_
    · exact hnext.2
    · omega
  | case5 fuel j k m hguard inn n km' m' hn hcond hmis =>
    unfold_let m' n inn km' at hn hcond hmis
    have hnle := sl_len_le ctx hsl j
    rw [searchLoopGo, if_pos hguard]
    simp only []
    rw [if_neg hn, if_neg hcond, if_neg hmis]
    refine ⟨hsl.pos_le _, hsl.len_le_rem _, le_rfl, ?_, Or.inr ⟨?_, ?_⟩⟩
    · show j + (ctx.sl (List.drop j ctx.t)).2 ≤ ctx.t.length
      omega
    · show 1 ≤ (ctx.sl (List.drop j ctx.t)).2
      omega
    · show j < ctx.t.length
      omega
  | case6 fuel j k m hguard =>
    rw [searchLoopGo, if_neg hguard]
    refine ⟨le_rfl, by simp, by simpa using hj, by simp, Or.inl rfl⟩

theorem searchLoop_post (ctx : SaCtx) (hsl : SearchLcpSpec ctx.s ctx.sl)
    (i0 j0 : Nat) (j k m : Nat) (hj : j ≤ ctx.t.length) :
    SearchPost ctx j (searchLoop ctx i0 j0 j k m) :=
  searchLoopGo_post ctx hsl i0 j0 (ctx.t.length - j) j k m hj

/-! ## Walker state invariant and per-step validity -/

theorem toI64_wrapSub {a b : Nat} (ha : a < I64H) (hb : b < I64H) :
    toI64 (wrapSub a b) = (a : Int) - b := by
  have hU : ((U64 : Nat) : Int) = 18446744073709551616 := by norm_num [U64]
  unfold toI64 wrapSub
  rw [hU]
  simp only [I64H] at ha hb ⊢
  split
  · omega
  · omega

/-- Reachability invariant of the persistent matcher state. -/
def StInv (ctx : SaCtx) (st : SaState) : Prop :=
  st.b0 ≤ st.i0 ∧ st.b0 ≤ st.j0 ∧ st.i0 + st.n0 ≤ ctx.s.length ∧
    st.j0 + st.n0 ≤ ctx.t.length

/-- Validity of one control against packer cursors `(spos, tpos)`:
the `add` read stays inside S, the `add`/`copy` reads stay inside T, the
cursors advance to `(spos', tpos')`, and the source cursor stays inside S. -/
def ValidStep (s t : List Nat) (spos tpos : Nat) (c : Control)
    (spos' tpos' : Nat) : Prop :=
  spos + c.add ≤ s.length ∧ tpos + c.add + c.copy ≤ t.length ∧
    tpos' = tpos + c.add + c.copy ∧
    (spos' : Int) = (spos : Int) + c.add + c.seek ∧ spos' ≤ s.length

/-- A control stream whose steps are all valid, threading the cursors. -/
inductive ValidChain (s t : List Nat) :
    Nat → Nat → List Control → Nat → Nat → Prop where
  | nil (spos tpos : Nat) : ValidChain s t spos tpos [] spos tpos
  | cons {spos tpos spos1 tpos1 spos' tpos' : Nat} {c : Control}
      {cs : List Control} :
      ValidStep s t spos tpos c spos1 tpos1 →
      ValidChain s t spos1 tpos1 cs spos' tpos' →
      ValidChain s t spos tpos (c :: cs) spos' tpos'

/-- Termination measure of the walker state. -/
def stMeasure (ctx : SaCtx) (st : SaState) : Nat :=
  2 * (ctx.t.length - (st.j0 + st.n0)) +
    (if st.j0 = ctx.t.length ∧ st.n0 = 0 ∧ st.b0 = 0 then 0 else 1)

theorem scan_similar_nil (ys : List Nat) : scan_similar [] ys = 0 := rfl

theorem sliceRange_self (l : List Nat) (a : Nat) : sliceRange l a a = [] := by
  unfold sliceRange
  refine List.drop_eq_nil_of_le ?_
  simpa using Nat.min_le_left a l.length

theorem saNext_none_iff (ctx : SaCtx) (st : SaState) :
    saNext ctx st = none ↔ (st.j0 = ctx.t.length ∧ st.b0 = 0) := by
  unfold saNext search_next
  by_cases h : st.j0 = ctx.t.length ∧ st.b0 = 0
  · rw [if_pos h]
    simpa using h
  · rw [if_neg h]
    simpa using h


theorem shrink_gap_terminal (ctx : SaCtx) (st : SaState) (i : Nat)
    (h : st.j0 + st.n0 = ctx.t.length) :
    shrink_gap ctx st i ctx.t.length = (0, 0) := by
  unfold shrink_gap
  rw [← h, sliceRange_self]
  simp [scan_similar, scanSimilarGo]

theorem saNext_some_spec (ctx : SaCtx) (hsl : SearchLcpSpec ctx.s ctx.sl)
    (hs63 : ctx.s.length < I64H) (st : SaState) (c : Control) (st' : SaState)
    (hinv : StInv ctx st) (h : saNext ctx st = some (c, st')) :
    StInv ctx st' ∧
      ValidStep ctx.s ctx.t (st.i0 - st.b0) (st.j0 - st.b0) c
        (st'.i0 - st'.b0) (st'.j0 - st'.b0) ∧
      stMeasure ctx st' < stMeasure ctx st := by
  obtain ⟨hb0i, hb0j, hin, hjn⟩ := hinv
  by_cases hterm : st.j0 = ctx.t.length ∧ st.b0 = 0
  · rw [(saNext_none_iff ctx st).mpr hterm] at h
    simp at h
  · set r := searchLoop ctx st.i0 st.j0 (st.j0 + st.n0) (st.j0 + st.n0) 0 with hr
    have post := searchLoop_post ctx hsl st.i0 st.j0 (st.j0 + st.n0)
      (st.j0 + st.n0) 0 (by omega)
    rw [← hr] at post
    obtain ⟨hp1, hp2, hp3, hp4, hp5⟩ := post
    set ab := shrink_gap ctx st r.1 r.2.1 with hab
    have hsome : saNext ctx st =
        some (⟨st.b0 + st.n0 + ab.1,
               (r.2.1 - ab.2) - (st.j0 + st.n0 + ab.1),
               toI64 (wrapSub (r.1 - ab.2) (st.i0 + st.n0 + ab.1))⟩,
              ⟨r.1, r.2.1, r.2.2, ab.2⟩) := by
      unfold saNext
      rw [search_next, if_neg hterm]
    rw [hsome] at h
    obtain ⟨hc, hst'⟩ := Prod.mk.injEq .. ▸ Option.some.inj h
    subst hc
    subst hst'
    have hshr := shrink_gap_spec ctx st r.1 r.2.1 hp3 (by omega) hin hp1
    rw [← hab] at hshr
    obtain ⟨hs1, hs2, hs3⟩ := hshr
    have hseek : toI64 (wrapSub (r.1 - ab.2) (st.i0 + st.n0 + ab.1)) =
        ((r.1 - ab.2 : Nat) : Int) - ((st.i0 + st.n0 + ab.1 : Nat) : Int) :=
      toI64_wrapSub (by omega) (by omega)
    refine ⟨⟨hs3, by show ab.2 ≤ r.2.1; omega, hp2, hp4⟩, ⟨?_, ?_, ?_, ?_, ?_⟩, ?_⟩
    · show st.i0 - st.b0 + (st.b0 + st.n0 + ab.1) ≤ ctx.s.length
      omega
    · show st.j0 - st.b0 + (st.b0 + st.n0 + ab.1) +
        (r.2.1 - ab.2 - (st.j0 + st.n0 + ab.1)) ≤ ctx.t.length
      omega
    · show r.2.1 - ab.2 = st.j0 - st.b0 + (st.b0 + st.n0 + ab.1) +
        (r.2.1 - ab.2 - (st.j0 + st.n0 + ab.1))
      omega
    · show ((r.1 - ab.2 : Nat) : Int) = ((st.i0 - st.b0 : Nat) : Int) +
        ((st.b0 + st.n0 + ab.1 : Nat) : Nat) +
        toI64 (wrapSub (r.1 - ab.2) (st.i0 + st.n0 + ab.1))
      rw [hseek]
      omega
    · show r.1 - ab.2 ≤ ctx.s.length
      omega
    · unfold stMeasure
      rcases hp5 with heq | hanch
      · have e1 : r.2.1 = ctx.t.length := by rw [heq]
        have e2 : r.2.2 = 0 := by rw [heq]
        by_cases hjn0 : st.j0 + st.n0 = ctx.t.length
        · have habz : ab.2 = 0 := by
            rw [hab, e1, shrink_gap_terminal ctx st r.1 hjn0]
          simp only []
          split
          · split
            · omega
            · omega
          · split
            · omega
            · omega
        · simp only []
          split
          · split
            · omega
            · omega
          · split
            · omega
            · omega
      · obtain ⟨hn1, hlt⟩ := hanch
        simp only []
        split
        · split
          · omega
          · omega
        · split
          · omega
          · omega

/-- Sum of `add + copy` over a control stream. -/
def sumAddCopy (cs : List Control) : Nat :=
  cs.foldl (fun a c => a + (c.add + c.copy)) 0

theorem sumAddCopy_cons (c : Control) (cs : List Control) :
    sumAddCopy (c :: cs) = c.add + c.copy + sumAddCopy cs := by
  have h : ∀ (l : List Control) (a : Nat),
      l.foldl (fun a c => a + (c.add + c.copy)) a =
        a + l.foldl (fun a c => a + (c.add + c.copy)) 0 := by
    intro l
    induction l with
    | nil => intro a; simp
    | cons x xs ih =>
      intro a
      simp only [List.foldl]
      rw [ih (a + (x.add + x.copy)), ih (0 + (x.add + x.copy))]
      omega
  unfold sumAddCopy
  simp only [List.foldl]
  rw [h cs (0 + (c.add + c.copy))]
  omega

/-- A valid chain advances the target cursor by exactly the control sum. -/
theorem ValidChain.tpos_eq {s t : List Nat} {spos tpos spos' tpos' : Nat}
    {cs : List Control} (h : ValidChain s t spos tpos cs spos' tpos') :
    tpos' = tpos + sumAddCopy cs := by
  induction h with
  | nil => simp [sumAddCopy]
  | cons hstep _ ih =>
    rw [sumAddCopy_cons]
    obtain ⟨_, _, h3, _, _⟩ := hstep
    omega

/-- The walker's stream from a reachable state is a valid chain ending with
the target cursor at `|T|`, provided the fuel covers the measure. -/
theorem saRun_chain (ctx : SaCtx) (hsl : SearchLcpSpec ctx.s ctx.sl)
    (hs63 : ctx.s.length < I64H) :
    ∀ (fuel : Nat) (st : SaState), StInv ctx st → stMeasure ctx st ≤ fuel →
      ∃ spos', spos' ≤ ctx.s.length ∧
        ValidChain ctx.s ctx.t (st.i0 - st.b0) (st.j0 - st.b0)
          (saRun ctx fuel st) spos' ctx.t.length := by
  intro fuel
  induction fuel with
  | zero =>
    intro st hinv hm
    have h0 : st.j0 = ctx.t.length ∧ st.n0 = 0 ∧ st.b0 = 0 := by
      unfold stMeasure at hm
      split at hm
      · assumption
      · omega
    refine ⟨st.i0, by have := hinv.2.2.1; omega, ?_⟩
    rw [saRun]
    have : st.i0 - st.b0 = st.i0 := by omega
    rw [this, h0.1, h0.2.2]
    simpa using ValidChain.nil st.i0 (ctx.t.length - 0)
  | succ fuel ih =>
    intro st hinv hm
    rw [saRun]
    cases hnext : saNext ctx st with
    | none =>
      obtain ⟨hj, hb⟩ := (saNext_none_iff ctx st).mp hnext
      refine ⟨st.i0, by have := hinv.2.2.1; omega, ?_⟩
      have : st.i0 - st.b0 = st.i0 := by omega
      rw [this, hj, hb]
      simpa using ValidChain.nil st.i0 (ctx.t.length - 0)
    | some p =>
      obtain ⟨c, st'⟩ := p
      obtain ⟨hinv', hstep, hdec⟩ :=
        saNext_some_spec ctx hsl hs63 st c st' hinv hnext
      obtain ⟨spos', hsp, hchain⟩ := ih st' hinv' (by omega)
      exact ⟨spos', hsp, ValidChain.cons hstep hchain⟩

/-- The initial state is invariant and its measure is within the fuel of
`saControls`. -/
theorem saControls_chain (ctx : SaCtx) (hsl : SearchLcpSpec ctx.s ctx.sl)
    (hs63 : ctx.s.length < I64H) :
    ∃ spos', spos' ≤ ctx.s.length ∧
      ValidChain ctx.s ctx.t 0 0 (saControls ctx) spos' ctx.t.length := by
  have h := saRun_chain ctx hsl hs63 (2 * ctx.t.length + 2) ⟨0, 0, 0, 0⟩
    (by refine ⟨Nat.le_refl 0, Nat.le_refl 0, by simp, by simp⟩)
    (by unfold stMeasure; split <;> simp <;> omega)
  simpa [saControls] using h

/-- C2 (walker part): the control sum of a full walker stream is `|T|`. -/
theorem saControls_sum (ctx : SaCtx) (hsl : SearchLcpSpec ctx.s ctx.sl)
    (hs63 : ctx.s.length < I64H) :
    sumAddCopy (saControls ctx) = ctx.t.length := by
  obtain ⟨spos', _, hchain⟩ := saControls_chain ctx hsl hs63
  have := hchain.tpos_eq
  omega

/-! ## The parallel scheduler (`ParSaDiff` in `src/bsdiff.rs`) -/

/-- Rust `slice::chunks(k)`, structurally recursive on the list length
(each chunk removes at least one element when `k ≥ 1`): consecutive chunks
of size `k`, the last one possibly shorter.  (`chunks` panics on `k = 0`;
all call sites pass `k ≥ MIN_CHUNK`, the `k = 0` equation is a junk
value.) -/
def chunksOfGo (k : Nat) : Nat → List Nat → List (List Nat)
  | 0, _ => []
  | _ + 1, [] => []
  | fuel + 1, x :: xs =>
    if k = 0 then []
    else (x :: xs).take k :: chunksOfGo k fuel ((x :: xs).drop k)

/-- Rust `slice::chunks(k)`. -/
def chunksOf (k : Nat) (l : List Nat) : List (List Nat) :=
  chunksOfGo k l.length l

/-- The source-cursor displacement accumulator of `ParSaDiff::compute`:
```rust
let mut pos = 0u64;
for ctl in diff {
    pos += ctl.add;
    pos = pos.wrapping_add(ctl.seek as u64);
    ctrls.push(ctl);
}
``` -/
def parPos (cs : List Control) : Nat :=
  cs.foldl (fun pos c => wrapAdd (wrapAdd pos c.add) (i64AsU64 c.seek)) 0

/-- One chunk's contribution in `ParSaDiff::compute`: the chunk's controls
followed by the synthetic reset control `{add: 0, copy: 0, seek: -pos}`. -/
def chunkControls (s : List Nat) (sl : List Nat → Nat × Nat)
    (small_match mismatch_count long_suffix : Nat) (ti : List Nat) :
    List Control :=
  let cs := saControls ⟨s, ti, sl, small_match, mismatch_count, long_suffix⟩
  cs ++ [⟨0, 0, -(toI64 (parPos cs))⟩]

/-- `ParSaDiff::compute`: per-chunk control lists concatenated in strict
chunk order (the rayon `par_iter().map(...).flatten().collect()` preserves
chunk order). -/
def parCompute (s t : List Nat) (sl : List Nat → Nat × Nat)
    (chunk small_match mismatch_count long_suffix : Nat) : List Control :=
  ((chunksOf chunk t).map
    (chunkControls s sl small_match mismatch_count long_suffix)).flatten

/-! ## The patch packer (`pack` in `src/bsdiff.rs`) -/

/-- `u8::wrapping_sub` as used for delta bytes: `y.wrapping_sub(*x)`. -/
def byteSub (x y : Nat) : Nat :=
  (y % 256 + 256 - x % 256) % 256

/-- The `while n > 0` delta loop of `pack` for one control: take chunks of
at most `bsize` bytes of `target[tpos..] - source[spos..]`.  (`bsize = 0`
would loop forever in the source; all call sites clamp `bsize ≥ 128`.) -/
def packDeltaLoopGo (s t : List Nat) (bsize : Nat) :
    Nat → Nat → Nat → Nat → List Nat
  | 0, _, _, _ => []
  | _ + 1, 0, _, _ => []
  | fuel + 1, n' + 1, spos, tpos =>
    if bsize = 0 then []
    else
      (List.zipWith (fun x y => byteSub x y)
          (s.drop spos) (t.drop tpos)).take (min (n' + 1) bsize)
        ++ packDeltaLoopGo s t bsize fuel (n' + 1 - min (n' + 1) bsize)
            (spos + min (n' + 1) bsize) (tpos + min (n' + 1) bsize)

/-- `while n > 0 { ... }` of the delta computation, with fuel `n` (each
iteration removes at least one byte when `bsize ≥ 1`). -/
def packDeltaLoop (s t : List Nat) (bsize : Nat)
    (n spos tpos : Nat) : List Nat :=
  packDeltaLoopGo s t bsize n n spos tpos

/-- The per-control body of the packer loop: the 24 encoded control bytes,
the delta bytes, the extra bytes, and the updated cursors. -/
def packLoop (s t : List Nat) (bsize : Nat) :
    List Control → Nat → Nat → List Nat × List Nat × List Nat
  | [], _, _ => ([], [], [])
  | c :: cs, spos, tpos =>
    let cb := encode_int (toI64 c.add) ++ encode_int (toI64 c.copy) ++
      encode_int c.seek
    let db := if c.add > 0 then packDeltaLoop s t bsize c.add spos tpos else []
    let eb := if c.copy > 0 then
        sliceRange t (tpos + c.add) (tpos + c.add + c.copy) else []
    let spos' := wrapAdd (spos + c.add) (i64AsU64 c.seek)
    let tpos' := tpos + c.add + c.copy
    let rest := packLoop s t bsize cs spos' tpos'
    (cb ++ rest.1, db ++ rest.2.1, eb ++ rest.2.2)

/-- `pack` from `src/bsdiff.rs`: run the control stream through the three
(abstractly compressed) sections, then prepend the 32-byte header.
Returns the patch bytes and the returned size `32 + csize + dsize + esize`. -/
def pack (s t : List Nat) (cs : List Control)
    (compress : List Nat → List Nat) (bsize : Nat) : List Nat × Nat :=
  let streams := packLoop s t bsize cs 0 0
  let bz_ctrls := compress streams.1
  let bz_delta := compress streams.2.1
  let bz_extra := compress streams.2.2
  let csize := bz_ctrls.length
  let dsize := bz_delta.length
  let esize := bz_extra.length
  let tsize := t.length
  let header := magicBytes ++ encode_int (toI64 csize) ++
    encode_int (toI64 dsize) ++ encode_int (toI64 tsize)
  (header ++ bz_ctrls ++ bz_delta ++ bz_extra, 32 + csize + dsize + esize)

/-- `div_ceil` from `src/bsdiff.rs`. -/
def div_ceil (x y : Nat) : Nat :=
  if x % y = 0 then x / y else x / y + 1

/-- The effective chunk size chosen by `Bsdiff::compare`. -/
def compareChunk (tlen : Nat) (cfg : BsdiffConfig) : Nat :=
  let chunk0 := match cfg.parallel_scheme with
    | .Never => tlen
    | .ChunkSize c => c
    | .NumJobs j => div_ceil tlen j
    | .Auto => DEFAULT_CHUNK
  max chunk0 MIN_CHUNK

/-- The control stream chosen by `Bsdiff::compare`: a single walker when
the chunk covers the whole target, the parallel scheduler otherwise. -/
def compareControls (s t : List Nat) (cfg : BsdiffConfig)
    (sl : List Nat → Nat × Nat) : List Control :=
  if compareChunk t.length cfg ≥ t.length then
    saControls ⟨s, t, sl, cfg.small_match, cfg.mismatch_count, cfg.long_suffix⟩
  else
    parCompute s t sl (compareChunk t.length cfg) cfg.small_match
      cfg.mismatch_count cfg.long_suffix

/-- `Bsdiff::compare`: chunk-size selection, then either the single walker
or the parallel scheduler, then the packer.  The suffix array and the
bzip2 encoder are the abstract parameters `sl` and `compress`. -/
def compare (s t : List Nat) (cfg : BsdiffConfig)
    (sl : List Nat → Nat × Nat) (compress : List Nat → List Nat) :
    List Nat × Nat :=
  pack s t (compareControls s t cfg sl) compress cfg.buffer_size

/-! ## Correctness of the seam stitching -/

theorem parPos_step {slen : Nat} (hslen : slen < I64H) {spos spos1 : Nat}
    {c : Control} (h1 : spos + c.add ≤ slen)
    (h4 : (spos1 : Int) = (spos : Int) + c.add + c.seek) (h5 : spos1 ≤ slen) :
    wrapAdd (wrapAdd spos c.add) (i64AsU64 c.seek) = spos1 := by
  have hU : ((U64 : Nat) : Int) = 18446744073709551616 := by norm_num [U64]
  unfold wrapAdd i64AsU64
  rw [hU]
  simp only [U64, I64H] at *
  omega

theorem parPos_chain {s t : List Nat} (hs63 : s.length < I64H) :
    ∀ {spos tpos spos' tpos' : Nat} {cs : List Control},
      ValidChain s t spos tpos cs spos' tpos' →
      cs.foldl (fun pos c => wrapAdd (wrapAdd pos c.add) (i64AsU64 c.seek))
        spos = spos' := by
  intro spos tpos spos' tpos' cs h
  induction h with
  | nil => rfl
  | cons hstep hrest ih =>
    obtain ⟨h1, _, _, h4, h5⟩ := hstep
    simp only [List.foldl]
    rw [parPos_step (lt_of_le_of_lt (Nat.le_refl _) hs63) h1 h4
      (le_trans h5 (Nat.le_refl _))]
    exact ih

theorem ValidChain.append {s t : List Nat}
    {spos tpos spos1 tpos1 spos' tpos' : Nat} {cs1 cs2 : List Control}
    (h1 : ValidChain s t spos tpos cs1 spos1 tpos1)
    (h2 : ValidChain s t spos1 tpos1 cs2 spos' tpos') :
    ValidChain s t spos tpos (cs1 ++ cs2) spos' tpos' := by
  induction h1 with
  | nil => simpa using h2
  | cons hstep _ ih => exact ValidChain.cons hstep (ih h2)

theorem ValidChain.shiftT {s t ti : List Nat} {off : Nat}
    (hlen : off + ti.length ≤ t.length) :
    ∀ {spos tpos spos' tpos' : Nat} {cs : List Control},
      ValidChain s ti spos tpos cs spos' tpos' →
      ValidChain s t spos (off + tpos) cs spos' (off + tpos') := by
  intro spos tpos spos' tpos' cs h
  induction h with
  | nil => exact ValidChain.nil _ _
  | cons hstep _ ih =>
    obtain ⟨h1, h2, h3, h4, h5⟩ := hstep
    exact ValidChain.cons ⟨h1, by omega, by omega, h4, h5⟩ ih

/-- The synthetic reset control is a valid step that returns the source
cursor to 0 and leaves the target cursor unchanged. -/
theorem reset_step_valid {s t : List Nat} {spos tpos : Nat}
    (hsp : spos ≤ s.length) (hs63 : s.length < I64H) (htp : tpos ≤ t.length) :
    ValidStep s t spos tpos ⟨0, 0, -(toI64 spos)⟩ 0 tpos := by
  have ht : toI64 spos = (spos : Int) := by
    unfold toI64
    rw [if_pos (by omega)]
  refine ⟨?_, ?_, ?_, ?_, ?_⟩
  · show spos + 0 ≤ s.length
    omega
  · show tpos + 0 + 0 ≤ t.length
    omega
  · show tpos = tpos + 0 + 0
    omega
  · show ((0 : Nat) : Int) = (spos : Int) + ((0 : Nat) : Int) + (-(toI64 spos))
    rw [ht]
    omega
  · show (0 : Nat) ≤ s.length
    omega

/-- The stitched stream of `ParSaDiff::compute` is one valid chain from
cursors `(0, 0)` to `(0, |T|)`. -/
theorem chunksOfGo_congr (k : Nat) :
    ∀ (f : Nat) (l : List Nat), l.length ≤ f →
      chunksOfGo k f l = chunksOfGo k l.length l := by
  intro f
  induction f using Nat.strong_induction_on with
  | _ f ih =>
    intro l hl
    match f, l with
    | 0, l =>
      have : l = [] := List.eq_nil_of_length_eq_zero (by omega)
      rw [this]
      rfl
    | f + 1, [] => rfl
    | f + 1, x :: xs =>
      simp only [List.length_cons] at hl
      by_cases hk : k = 0
      · simp only [List.length_cons, chunksOfGo, if_pos hk]
      · simp only [List.length_cons, chunksOfGo, if_neg hk]
        congr 1
        have hd : ((x :: xs).drop k).length ≤ f := by
          simp only [List.length_drop, List.length_cons]
          omega
        have hd2 : ((x :: xs).drop k).length ≤ xs.length := by
          simp only [List.length_drop, List.length_cons]
          omega
        rw [ih f (by omega) _ hd, ← ih xs.length (by omega) _ hd2]

theorem chunksOf_cons (k : Nat) (x : Nat) (xs : List Nat) (hk : k ≠ 0) :
    chunksOf k (x :: xs) =
      (x :: xs).take k :: chunksOf k ((x :: xs).drop k) := by
  unfold chunksOf
  simp only [List.length_cons, chunksOfGo, if_neg hk]
  congr 1
  exact chunksOfGo_congr k xs.length _ (by simp; omega)

theorem parCompute_chain (s t : List Nat) (sl : List Nat → Nat × Nat)
    (hsl : SearchLcpSpec s sl) (hs63 : s.length < I64H)
    (chunk sm mm ls : Nat) (hchunk : 1 ≤ chunk) :
    ValidChain s t 0 0 (parCompute s t sl chunk sm mm ls) 0 t.length := by
  suffices h : ∀ (l : List Nat) (off : Nat), off + l.length = t.length →
      ValidChain s t 0 off
        (((chunksOf chunk l).map (chunkControls s sl sm mm ls)).flatten)
        0 t.length by
    have := h t 0 (by omega)
    simpa [parCompute] using this
  suffices h2 : ∀ (n : Nat) (l : List Nat), l.length ≤ n → ∀ (off : Nat),
      off + l.length = t.length →
      ValidChain s t 0 off
        (((chunksOf chunk l).map (chunkControls s sl sm mm ls)).flatten)
        0 t.length by
    exact fun l => h2 l.length l le_rfl
  intro n
  induction n with
  | zero =>
    intro l hl off hoff
    have : l = [] := List.eq_nil_of_length_eq_zero (by omega)
    subst this
    simp only [chunksOf, chunksOfGo, List.length_nil, List.map_nil,
      List.flatten_nil]
    have : off = t.length := by simpa using hoff
    rw [this]
    exact ValidChain.nil 0 t.length
  | succ n ih =>
    intro l hl off hoff
    match l with
    | [] =>
      simp only [chunksOf, chunksOfGo, List.length_nil, List.map_nil,
        List.flatten_nil]
      have : off = t.length := by simpa using hoff
      rw [this]
      exact ValidChain.nil 0 t.length
    | x :: xs =>
    rw [chunksOf_cons chunk x xs (by omega)]
    simp only [List.map_cons, List.flatten_cons]
    set ti := (x :: xs).take chunk with hti
    set ctx := (⟨s, ti, sl, sm, mm, ls⟩ : SaCtx) with hctx
    obtain ⟨spos', hsp, hch⟩ := saControls_chain ctx hsl hs63
    have hchZ := hch
    have hpos : parPos (saControls ctx) = spos' := parPos_chain hs63 hch
    have htile : ti.length ≤ (x :: xs).length := by
      rw [hti]; simp
    have hofft : off + ti.length ≤ t.length := by omega
    have hshift := ValidChain.shiftT (t := t) hofft hch
    simp only [Nat.add_zero] at hshift
    have hreset : ValidStep s t spos' (off + ti.length)
        ⟨0, 0, -(toI64 spos')⟩ 0 (off + ti.length) :=
      reset_step_valid hsp hs63 (by omega)
    have hchunkfull : ValidChain s t 0 off
        (chunkControls s sl sm mm ls ti) 0 (off + ti.length) := by
      unfold chunkControls
      simp only []
      rw [← hctx, hpos]
      exact hshift.append (ValidChain.cons hreset (ValidChain.nil 0 _))
    have hrest := ih ((x :: xs).drop chunk) (by
        simp only [List.length_drop, List.length_cons]
        simp only [List.length_cons] at hl
        omega)
      (off + ti.length) (by
        have : ((x :: xs).drop chunk).length = (x :: xs).length - chunk := by
          simp
        have hlen : ti.length = min chunk (x :: xs).length := by rw [hti]; simp
        omega)
    exact hchunkfull.append hrest

/-- C2: for every source, target and configuration, the walker's control
stream sums `add + copy` to exactly `|T|`, in both the sequential and the
parallel (stitched) paths; equivalently, applying the stream from target
cursor 0 leaves the target cursor at `|T|`. -/
theorem control_sum (s t : List Nat) (sl : List Nat → Nat × Nat)
    (hsl : SearchLcpSpec s sl) (hs63 : s.length < I64H)
    (sm mm ls chunk : Nat) (hchunk : 1 ≤ chunk) :
    sumAddCopy (saControls ⟨s, t, sl, sm, mm, ls⟩) = t.length ∧
      sumAddCopy (parCompute s t sl chunk sm mm ls) = t.length := by
  constructor
  · exact saControls_sum ⟨s, t, sl, sm, mm, ls⟩ hsl hs63
  · have h := parCompute_chain s t sl hsl hs63 chunk sm mm ls hchunk
    have := h.tpos_eq
    omega

/-- Witness for C2 at `S = []`, `T = [7]`, defaults, chunk 1. -/
theorem control_sum_witness :
    (SearchLcpSpec [] (fun _ => (0, 0)) ∧ ([] : List Nat).length < I64H ∧ 1 ≤ 1) ∧
      sumAddCopy (saControls ⟨[], [7], fun _ => (0, 0), 12, 8, 256⟩) = 1 ∧
      sumAddCopy (parCompute [] [7] (fun _ => (0, 0)) 1 12 8 256) = 1 := by
  have hsl : SearchLcpSpec [] (fun _ => (0, 0)) := by
    refine ⟨fun q => by simp, fun q => by simp, fun q => by simp,
      fun q => by simp, fun q p k hpk hkq hm => by simp at hpk ⊢; omega⟩
  refine ⟨⟨hsl, by norm_num [I64H], le_rfl⟩, ?_⟩
  have := control_sum [] [7] (fun _ => (0, 0)) hsl
    (by norm_num [I64H]) 12 8 256 1 le_rfl
  simpa using this

/-- C8: the parallel scheduler emits, for every chunk, that chunk's
controls followed by exactly one synthetic control
`{add: 0, copy: 0, seek: -pos}` where `pos` is the wrapped sum of
`add + seek` over the chunk's controls (`parPos`); chunk sequences are
concatenated in strict chunk order; `pos` equals the chunk's net source
cursor displacement, so the synthetic control rewinds the source cursor
to 0 while leaving the target cursor at the chunk's end. -/
theorem parallel_seam (s t : List Nat) (sl : List Nat → Nat × Nat)
    (hsl : SearchLcpSpec s sl) (hs63 : s.length < I64H)
    (chunk sm mm ls : Nat) :
    parCompute s t sl chunk sm mm ls =
      ((chunksOf chunk t).map (fun ti =>
        saControls ⟨s, ti, sl, sm, mm, ls⟩ ++
          [⟨0, 0, -(toI64 (parPos (saControls ⟨s, ti, sl, sm, mm, ls⟩)))⟩])).flatten ∧
    ∀ ti ∈ chunksOf chunk t, ∃ spos',
      spos' ≤ s.length ∧
      ValidChain s ti 0 0 (saControls ⟨s, ti, sl, sm, mm, ls⟩) spos' ti.length ∧
      parPos (saControls ⟨s, ti, sl, sm, mm, ls⟩) = spos' ∧
      ValidChain s ti 0 0 (chunkControls s sl sm mm ls ti) 0 ti.length := by
  constructor
  · rfl
  · intro ti _
    set ctx := (⟨s, ti, sl, sm, mm, ls⟩ : SaCtx) with hctx
    obtain ⟨spos', hsp, hch⟩ := saControls_chain ctx hsl hs63
    have hpos : parPos (saControls ctx) = spos' := parPos_chain hs63 hch
    refine ⟨spos', hsp, hch, hpos, ?_⟩
    unfold chunkControls
    simp only []
    rw [← hctx, hpos]
    have hreset : ValidStep s ti spos' ti.length
        ⟨0, 0, -(toI64 spos')⟩ 0 ti.length :=
      reset_step_valid hsp hs63 le_rfl
    have := hch.append (ValidChain.cons hreset (ValidChain.nil 0 ti.length))
    exact this

/-- Witness for C8 at `S = []`, `T = [7, 8]`, chunk size 1. -/
theorem parallel_seam_witness :
    (SearchLcpSpec [] (fun _ => (0, 0)) ∧ ([] : List Nat).length < I64H) ∧
      (parCompute [] [7, 8] (fun _ => (0, 0)) 1 12 8 256 =
        ((chunksOf 1 [7, 8]).map (fun ti =>
          saControls ⟨[], ti, fun _ => (0, 0), 12, 8, 256⟩ ++
            [⟨0, 0, -(toI64 (parPos
              (saControls ⟨[], ti, fun _ => (0, 0), 12, 8, 256⟩)))⟩])).flatten ∧
      ∀ ti ∈ chunksOf 1 [7, 8], ∃ spos',
        spos' ≤ ([] : List Nat).length ∧
        ValidChain [] ti 0 0
          (saControls ⟨[], ti, fun _ => (0, 0), 12, 8, 256⟩) spos' ti.length ∧
        parPos (saControls ⟨[], ti, fun _ => (0, 0), 12, 8, 256⟩) = spos' ∧
        ValidChain [] ti 0 0
          (chunkControls [] (fun _ => (0, 0)) 12 8 256 ti) 0 ti.length) := by
  have hsl : SearchLcpSpec [] (fun _ => (0, 0)) := by
    refine ⟨fun q => by simp, fun q => by simp, fun q => by simp,
      fun q => by simp, fun q p k hpk hkq hm => by simp at hpk ⊢; omega⟩
  exact ⟨⟨hsl, by norm_num [I64H]⟩,
    parallel_seam [] [7, 8] (fun _ => (0, 0)) hsl (by norm_num [I64H]) 1 12 8 256⟩

/-! ## Header discipline (C7) and configuration entry behavior (C6) -/

theorem encode_int_length (x : Int) : (encode_int x).length = 8 := by
  unfold encode_int
  split <;> rfl

theorem decode_int_append (b r : List Nat) (h : b.length = 8) :
    decode_int (b ++ r) = decode_int b := by
  unfold decode_int leReadU64
  rw [List.take_append_eq_append_take, h]
  simp

theorem decode_encode_nat (n : Nat) (h : n < I64H) :
    decode_int (encode_int (toI64 n)) = (n : Int) := by
  have ht : toI64 n = (n : Int) := by
    unfold toI64
    rw [if_pos (by omega)]
  rw [ht]
  rw [decode_int_encode_int]
  · simp only [I64H] at h
    omega
  · simp only [I64H] at h
    omega

theorem drop_eight_append {b : List Nat} (r : List Nat) (h : b.length = 8) :
    (b ++ r).drop 8 = r := by
  rw [List.drop_append_of_le_length (by omega)]
  rw [List.drop_eq_nil_of_le (by omega)]
  simp

theorem drop_sixteen_split (l : List Nat) : l.drop 16 = (l.drop 8).drop 8 := by
  rw [List.drop_drop]

theorem drop_twentyfour_split (l : List Nat) :
    l.drop 24 = (l.drop 16).drop 8 := by
  rw [List.drop_drop]

/-- C7: every patch emitted by `compare` is the 32-byte header — magic
`"BSDIFF40"`, then the encodings of `csize`, `dsize` and `|T|`, all three
decoding to values `≥ 0` — followed by the compressed control, delta and
extra sections in that order, and `compare` returns
`32 + csize + dsize + esize`. -/
theorem header_discipline (s t : List Nat) (cfg : BsdiffConfig)
    (sl : List Nat → Nat × Nat) (compress : List Nat → List Nat)
    (ht : t.length < I64H)
    (hc : (compress (packLoop s t cfg.buffer_size
      (compareControls s t cfg sl) 0 0).1).length < I64H)
    (hd : (compress (packLoop s t cfg.buffer_size
      (compareControls s t cfg sl) 0 0).2.1).length < I64H) :
    ∃ bzc bzd bze : List Nat,
      bzc = compress (packLoop s t cfg.buffer_size
        (compareControls s t cfg sl) 0 0).1 ∧
      bzd = compress (packLoop s t cfg.buffer_size
        (compareControls s t cfg sl) 0 0).2.1 ∧
      bze = compress (packLoop s t cfg.buffer_size
        (compareControls s t cfg sl) 0 0).2.2 ∧
      (compare s t cfg sl compress).1 =
        magicBytes ++ encode_int (toI64 bzc.length) ++
          encode_int (toI64 bzd.length) ++ encode_int (toI64 t.length) ++
          bzc ++ bzd ++ bze ∧
      (compare s t cfg sl compress).1.take 8 = magicBytes ∧
      decode_int ((compare s t cfg sl compress).1.drop 8) = (bzc.length : Int) ∧
      decode_int ((compare s t cfg sl compress).1.drop 16) = (bzd.length : Int) ∧
      decode_int ((compare s t cfg sl compress).1.drop 24) = (t.length : Int) ∧
      0 ≤ decode_int ((compare s t cfg sl compress).1.drop 8) ∧
      0 ≤ decode_int ((compare s t cfg sl compress).1.drop 16) ∧
      0 ≤ decode_int ((compare s t cfg sl compress).1.drop 24) ∧
      (compare s t cfg sl compress).2 =
        32 + bzc.length + bzd.length + bze.length := by
  refine ⟨_, _, _, rfl, rfl, rfl, ?_⟩
  have hpatch : (compare s t cfg sl compress).1 =
      magicBytes ++
        (encode_int (toI64 (compress (packLoop s t cfg.buffer_size
          (compareControls s t cfg sl) 0 0).1).length) ++
        (encode_int (toI64 (compress (packLoop s t cfg.buffer_size
          (compareControls s t cfg sl) 0 0).2.1).length) ++
        (encode_int (toI64 t.length) ++
        (compress (packLoop s t cfg.buffer_size
          (compareControls s t cfg sl) 0 0).1 ++
        (compress (packLoop s t cfg.buffer_size
          (compareControls s t cfg sl) 0 0).2.1 ++
        compress (packLoop s t cfg.buffer_size
          (compareControls s t cfg sl) 0 0).2.2))))) := by
    unfold compare pack
    simp [List.append_assoc]
  constructor
  · rw [hpatch]
    simp [List.append_assoc]
  have hm8 : magicBytes.length = 8 := rfl
  have hdrop8 : (compare s t cfg sl compress).1.drop 8 =
      encode_int (toI64 (compress (packLoop s t cfg.buffer_size
        (compareControls s t cfg sl) 0 0).1).length) ++
      (encode_int (toI64 (compress (packLoop s t cfg.buffer_size
        (compareControls s t cfg sl) 0 0).2.1).length) ++
      (encode_int (toI64 t.length) ++
      (compress (packLoop s t cfg.buffer_size
        (compareControls s t cfg sl) 0 0).1 ++
      (compress (packLoop s t cfg.buffer_size
        (compareControls s t cfg sl) 0 0).2.1 ++
      compress (packLoop s t cfg.buffer_size
        (compareControls s t cfg sl) 0 0).2.2)))) := by
    rw [hpatch, drop_eight_append _ hm8]
  have hdrop16 : (compare s t cfg sl compress).1.drop 16 =
      encode_int (toI64 (compress (packLoop s t cfg.buffer_size
        (compareControls s t cfg sl) 0 0).2.1).length) ++
      (encode_int (toI64 t.length) ++
      (compress (packLoop s t cfg.buffer_size
        (compareControls s t cfg sl) 0 0).1 ++
      (compress (packLoop s t cfg.buffer_size
        (compareControls s t cfg sl) 0 0).2.1 ++
      compress (packLoop s t cfg.buffer_size
        (compareControls s t cfg sl) 0 0).2.2))) := by
    rw [drop_sixteen_split, hdrop8, drop_eight_append _ (encode_int_length _)]
  have hdrop24 : (compare s t cfg sl compress).1.drop 24 =
      encode_int (toI64 t.length) ++
      (compress (packLoop s t cfg.buffer_size
        (compareControls s t cfg sl) 0 0).1 ++
      (compress (packLoop s t cfg.buffer_size
        (compareControls s t cfg sl) 0 0).2.1 ++
      compress (packLoop s t cfg.buffer_size
        (compareControls s t cfg sl) 0 0).2.2)) := by
    rw [drop_twentyfour_split, hdrop16,
      drop_eight_append _ (encode_int_length _)]
  refine ⟨rfl, ?_, ?_, ?_, ?_, ?_, ?_, ?_⟩
  · rw [hdrop8, decode_int_append _ _ (encode_int_length _),
      decode_encode_nat _ hc]
  · rw [hdrop16, decode_int_append _ _ (encode_int_length _),
      decode_encode_nat _ hd]
  · rw [hdrop24, decode_int_append _ _ (encode_int_length _),
      decode_encode_nat _ ht]
  · rw [hdrop8, decode_int_append _ _ (encode_int_length _),
      decode_encode_nat _ hc]
    positivity
  · rw [hdrop16, decode_int_append _ _ (encode_int_length _),
      decode_encode_nat _ hd]
    positivity
  · rw [hdrop24, decode_int_append _ _ (encode_int_length _),
      decode_encode_nat _ ht]
    positivity
  · unfold compare pack
    simp

/-- Witness for C7: `S = []`, `T = [5, 6, 7]`, defaults, identity
compressor. -/
theorem header_discipline_witness :
    (([5, 6, 7] : List Nat).length < I64H ∧
      (id (packLoop [] [5, 6, 7] defaultConfig.buffer_size
        (compareControls [] [5, 6, 7] defaultConfig (fun _ => (0, 0))) 0
        0).1).length < I64H ∧
      (id (packLoop [] [5, 6, 7] defaultConfig.buffer_size
        (compareControls [] [5, 6, 7] defaultConfig (fun _ => (0, 0))) 0
        0).2.1).length < I64H) ∧
    ∃ bzc bzd bze : List Nat,
      bzc = id (packLoop [] [5, 6, 7] defaultConfig.buffer_size
        (compareControls [] [5, 6, 7] defaultConfig (fun _ => (0, 0))) 0 0).1 ∧
      bzd = id (packLoop [] [5, 6, 7] defaultConfig.buffer_size
        (compareControls [] [5, 6, 7] defaultConfig (fun _ => (0, 0))) 0 0).2.1 ∧
      bze = id (packLoop [] [5, 6, 7] defaultConfig.buffer_size
        (compareControls [] [5, 6, 7] defaultConfig (fun _ => (0, 0))) 0 0).2.2 ∧
      (compare [] [5, 6, 7] defaultConfig (fun _ => (0, 0)) id).1 =
        magicBytes ++ encode_int (toI64 bzc.length) ++
          encode_int (toI64 bzd.length) ++
          encode_int (toI64 ([5, 6, 7] : List Nat).length) ++
          bzc ++ bzd ++ bze ∧
      (compare [] [5, 6, 7] defaultConfig (fun _ => (0, 0)) id).1.take 8 =
        magicBytes ∧
      decode_int ((compare [] [5, 6, 7] defaultConfig
        (fun _ => (0, 0)) id).1.drop 8) = (bzc.length : Int) ∧
      decode_int ((compare [] [5, 6, 7] defaultConfig
        (fun _ => (0, 0)) id).1.drop 16) = (bzd.length : Int) ∧
      decode_int ((compare [] [5, 6, 7] defaultConfig
        (fun _ => (0, 0)) id).1.drop 24) =
        (([5, 6, 7] : List Nat).length : Int) ∧
      0 ≤ decode_int ((compare [] [5, 6, 7] defaultConfig
        (fun _ => (0, 0)) id).1.drop 8) ∧
      0 ≤ decode_int ((compare [] [5, 6, 7] defaultConfig
        (fun _ => (0, 0)) id).1.drop 16) ∧
      0 ≤ decode_int ((compare [] [5, 6, 7] defaultConfig
        (fun _ => (0, 0)) id).1.drop 24) ∧
      (compare [] [5, 6, 7] defaultConfig (fun _ => (0, 0)) id).2 =
        32 + bzc.length + bzd.length + bze.length :=
  ⟨⟨by norm_num [I64H], by decide, by decide⟩,
    header_discipline [] [5, 6, 7] defaultConfig (fun _ => (0, 0)) id
      (by norm_num [I64H]) (by decide) (by decide)⟩

/-- C6 (counterexample): with the concrete out-of-range configuration
numerics `compression_level = 10` and `buffer_size = 5`, the builder does
not surface any error — it silently clamps the values (to 9 and 128) — and
`compare` proceeds with the computation and produces a complete patch (of
size 59 for `S = []`, `T = [5, 6, 7]`), contradicting the claim that an
`InvalidArgument` error is surfaced at entry and the computation does not
proceed. -/
theorem config_out_of_range_proceeds :
    bsdiffNew [] = some defaultConfig ∧
      (setCompressionLevel defaultConfig 10).compression_level = 9 ∧
      (setBufferSize defaultConfig 5).buffer_size = 128 ∧
      (setLongSuffix defaultConfig 63).long_suffix = 64 ∧
      (compare [] [5, 6, 7]
        (setBufferSize (setCompressionLevel defaultConfig 10) 5)
        (fun _ => (0, 0)) id).2 = 59 := by
  decide

/-- C6 (amended): oversized sources make `Bsdiff::new` panic at entry
(modelled as `none`) rather than return an `InvalidArgument` error, and
out-of-range configuration numerics are silently clamped into range
(compression level to at most 9, buffer size to at least 128, long suffix
to at least 64, mismatch count to at least 1) — the computation then
proceeds with the clamped values; no `InvalidArgument` error exists. -/
theorem entry_clamps_and_panics :
    (∀ src : List Nat, src.length > MAX_LENGTH → bsdiffNew src = none) ∧
      (∀ src : List Nat, src.length ≤ MAX_LENGTH →
        bsdiffNew src = some defaultConfig) ∧
      (∀ (c : BsdiffConfig) (v : Nat), 9 < v →
        (setCompressionLevel c v).compression_level = 9) ∧
      (∀ (c : BsdiffConfig) (v : Nat), v < 128 →
        (setBufferSize c v).buffer_size = 128) ∧
      (∀ (c : BsdiffConfig) (v : Nat), v < 64 →
        (setLongSuffix c v).long_suffix = 64) ∧
      (∀ (c : BsdiffConfig) (v : Nat), v < 1 →
        (setMismatchCount c v).mismatch_count = 1) := by
  refine ⟨?_, ?_, ?_, ?_, ?_, ?_⟩
  · intro src h
    unfold bsdiffNew
    rw [if_pos h]
  · intro src h
    unfold bsdiffNew
    rw [if_neg (by omega)]
  · intro c v h
    unfold setCompressionLevel
    simp only []
    omega
  · intro c v h
    unfold setBufferSize
    simp only []
    rw [if_pos h]
  · intro c v h
    unfold setLongSuffix
    simp only []
    rw [if_pos h]
  · intro c v h
    unfold setMismatchCount
    simp only []
    rw [if_pos h]

/-- Witness for the amended C6, with a source of length `2^32 > MAX`. -/
theorem entry_clamps_and_panics_witness :
    ((List.replicate 4294967296 0).length > MAX_LENGTH ∧
      bsdiffNew (List.replicate 4294967296 0) = none) ∧
    (([] : List Nat).length ≤ MAX_LENGTH ∧ bsdiffNew [] = some defaultConfig) ∧
    (9 < 10 ∧ (setCompressionLevel defaultConfig 10).compression_level = 9) ∧
    (5 < 128 ∧ (setBufferSize defaultConfig 5).buffer_size = 128) ∧
    (63 < 64 ∧ (setLongSuffix defaultConfig 63).long_suffix = 64) ∧
    (0 < 1 ∧ (setMismatchCount defaultConfig 0).mismatch_count = 1) :=
  ⟨⟨by rw [List.length_replicate]; norm_num [MAX_LENGTH],
     entry_clamps_and_panics.1 _
       (by rw [List.length_replicate]; norm_num [MAX_LENGTH])⟩,
   ⟨by norm_num [MAX_LENGTH],
     entry_clamps_and_panics.2.1 _ (by norm_num [MAX_LENGTH])⟩,
   ⟨by norm_num, entry_clamps_and_panics.2.2.1 _ 10 (by norm_num)⟩,
   ⟨by norm_num, entry_clamps_and_panics.2.2.2.1 _ 5 (by norm_num)⟩,
   ⟨by norm_num, entry_clamps_and_panics.2.2.2.2.1 _ 63 (by norm_num)⟩,
   ⟨by norm_num, entry_clamps_and_panics.2.2.2.2.2 _ 0 (by norm_num)⟩⟩

/-! ## C9: the skip-branch decrement of `m` never underflows -/

/-- The match condition tested by the `k`-counting loop at position `p`:
continuing the previous anchor's extrapolation into S still matches T. -/
def condAt (ctx : SaCtx) (i0 j0 p : Nat) : Prop :=
  satAdd i0 (p - j0) < ctx.s.length ∧
    ctx.s.getD (satAdd i0 (p - j0)) 0 = ctx.t.getD p 0

instance (ctx : SaCtx) (i0 j0 p : Nat) : Decidable (condAt ctx i0 j0 p) := by
  unfold condAt
  infer_instance

/-- Number of positions in `[a, a + fuel)` satisfying `condAt`. -/
def cntGo (ctx : SaCtx) (i0 j0 : Nat) : Nat → Nat → Nat
  | 0, _ => 0
  | fuel + 1, a =>
    (if condAt ctx i0 j0 a then 1 else 0) + cntGo ctx i0 j0 fuel (a + 1)

/-- Number of positions in `[a, b)` satisfying `condAt`. -/
def cnt (ctx : SaCtx) (i0 j0 a b : Nat) : Nat :=
  cntGo ctx i0 j0 (b - a) a

theorem cnt_zero (ctx : SaCtx) (i0 j0 a b : Nat) (h : b ≤ a) :
    cnt ctx i0 j0 a b = 0 := by
  unfold cnt
  rw [Nat.sub_eq_zero_of_le h]
  rfl

theorem cnt_succ (ctx : SaCtx) (i0 j0 a b : Nat) (h : a < b) :
    cnt ctx i0 j0 a b =
      (if condAt ctx i0 j0 a then 1 else 0) + cnt ctx i0 j0 (a + 1) b := by
  unfold cnt
  have h1 : b - a = (b - (a + 1)) + 1 := by omega
  rw [h1]
  rfl

theorem cntGo_add (ctx : SaCtx) (i0 j0 : Nat) :
    ∀ (f1 f2 a : Nat),
      cntGo ctx i0 j0 (f1 + f2) a =
        cntGo ctx i0 j0 f1 a + cntGo ctx i0 j0 f2 (a + f1) := by
  intro f1
  induction f1 with
  | zero =>
    intro f2 a
    simp [cntGo]
  | succ f1 ih =>
    intro f2 a
    have h1 : f1 + 1 + f2 = (f1 + f2) + 1 := by omega
    rw [h1]
    simp only [cntGo]
    rw [ih f2 (a + 1)]
    have h2 : a + 1 + f1 = a + (f1 + 1) := by omega
    rw [h2]
    omega

theorem cnt_split (ctx : SaCtx) (i0 j0 : Nat) (a b c : Nat)
    (hab : a ≤ b) (hbc : b ≤ c) :
    cnt ctx i0 j0 a c = cnt ctx i0 j0 a b + cnt ctx i0 j0 b c := by
  unfold cnt
  have h1 : c - a = (b - a) + (c - b) := by omega
  rw [h1, cntGo_add]
  have h2 : a + (b - a) = b := by omega
  rw [h2]

theorem cnt_pos (ctx : SaCtx) (i0 j0 a b : Nat) (h : a < b)
    (hc : condAt ctx i0 j0 a) : 1 ≤ cnt ctx i0 j0 a b := by
  rw [cnt_succ ctx i0 j0 a b h, if_pos hc]
  omega

/-- The skip-loop's moving-index condition agrees with `condAt`: the loop
starts at `i = i0.saturating_add(jstart - j0)` and advances `i` by plain
`+1`, while the counting loop recomputes `i0.saturating_add(p - j0)`; both
sides of the conjunction agree because a saturated index is `≥ |S|`
(slices are no longer than `usize::MAX`). -/
theorem dec_cond_eq (ctx : SaCtx) (i0 j0 jstart p : Nat)
    (hsU : ctx.s.length ≤ U64 - 1) (h0 : j0 ≤ jstart) (h1 : jstart ≤ p) :
    ((satAdd i0 (jstart - j0) + (p - jstart) < ctx.s.length ∧
        ctx.s.getD (satAdd i0 (jstart - j0) + (p - jstart)) 0 =
          ctx.t.getD p 0) ↔ condAt ctx i0 j0 p) := by
  unfold condAt satAdd
  by_cases hsat : i0 + (jstart - j0) ≤ U64 - 1
  · rw [min_eq_left hsat]
    have he : i0 + (jstart - j0) + (p - jstart) = i0 + (p - j0) := by omega
    rw [he]
    by_cases hsat2 : i0 + (p - j0) ≤ U64 - 1
    · rw [min_eq_left hsat2]
    · rw [min_eq_right (by omega)]
      constructor
      · intro h
        omega
      · intro h
        omega
  · rw [min_eq_right (by omega), min_eq_right (by omega)]
    constructor
    · intro h
      omega
    · intro h
      omega

/-- Instrumented twin of `decLoopGo`: `true` iff every decrement the loop
executes happens on a non-zero `m` (so the `usize` subtraction `m -= 1` in
the Rust code never underflows during this loop). -/
def decLoopOkGo (ctx : SaCtx) (next : Nat) : Nat → Nat → Nat → Nat → Bool
  | 0, _, _, _ => true
  | fuel + 1, i, j, m =>
    if j < next then
      if i < ctx.s.length ∧ ctx.s.getD i 0 = ctx.t.getD j 0 then
        decide (m ≠ 0) && decLoopOkGo ctx next fuel (i + 1) (j + 1) (m - 1)
      else decLoopOkGo ctx next fuel (i + 1) (j + 1) m
    else true

/-- Instrumented twin of `decLoop`. -/
def decLoopOk (ctx : SaCtx) (next : Nat) (i j m : Nat) : Bool :=
  decLoopOkGo ctx next (next - j) i j m

/-- The counting loop adds exactly the number of matching positions in
`[k, bound)` and raises `k` to `bound`. -/
theorem countLoopGo_spec (ctx : SaCtx) (i0 j0 bound : Nat) :
    ∀ (fuel k m : Nat), bound ≤ k + fuel →
      countLoopGo ctx i0 j0 bound fuel k m =
        (max k bound, m + cnt ctx i0 j0 k bound) := by
  intro fuel
  induction fuel with
  | zero =>
    intro k m h
    have hz := cnt_zero ctx i0 j0 k bound (by omega)
    simp only [countLoopGo, hz]
    rw [Prod.mk.injEq]
    exact ⟨by omega, by omega⟩
  | succ fuel ih =>
    intro k m h
    by_cases hk : k < bound
    · simp only [countLoopGo]
      rw [if_pos hk, cnt_succ ctx i0 j0 k bound hk]
      by_cases hc : condAt ctx i0 j0 k
      · have hc' := hc
        unfold condAt at hc'
        rw [if_pos hc', ih (k + 1) (m + 1) (by omega), if_pos hc,
          Prod.mk.injEq]
        exact ⟨by omega, by omega⟩
      · have hc' := hc
        unfold condAt at hc'
        rw [if_neg hc', ih (k + 1) m (by omega), if_neg hc, Prod.mk.injEq]
        exact ⟨by omega, by omega⟩
    · simp only [countLoopGo]
      have hz := cnt_zero ctx i0 j0 k bound (by omega)
      rw [if_neg hk, hz, Prod.mk.injEq]
      exact ⟨by omega, by omega⟩

theorem countLoop_spec (ctx : SaCtx) (i0 j0 bound k m : Nat) :
    countLoop ctx i0 j0 bound k m =
      (max k bound, m + cnt ctx i0 j0 k bound) := by
  unfold countLoop
  exact countLoopGo_spec ctx i0 j0 bound (bound - k) k m (by omega)

/-- The skip decrement loop: if `m` dominates the number of matching
positions up to some horizon `khi ≥ next`, then no decrement underflows
and the resulting `m` still dominates the count from `next` on. -/
theorem decLoopGo_spec (ctx : SaCtx) (i0 j0 jstart next khi : Nat)
    (hsU : ctx.s.length ≤ U64 - 1) (hj0 : j0 ≤ jstart) (hnk : next ≤ khi) :
    ∀ (fuel j m : Nat), jstart ≤ j → m ≥ cnt ctx i0 j0 j khi →
      decLoopOkGo ctx next fuel (satAdd i0 (jstart - j0) + (j - jstart)) j m
          = true ∧
        decLoopGo ctx next fuel (satAdd i0 (jstart - j0) + (j - jstart)) j m
          ≥ cnt ctx i0 j0 (max j next) khi := by
  intro fuel
  induction fuel with
  | zero =>
    intro j m hsj hm
    constructor
    · simp only [decLoopOkGo]
    · simp only [decLoopGo]
      rcases Nat.le_total khi (max j next) with h | h
      · have hz := cnt_zero ctx i0 j0 (max j next) khi h
        omega
      · have hs := cnt_split ctx i0 j0 j (max j next) khi
          (le_max_left _ _) h
        omega
  | succ fuel ih =>
    intro j m hsj hm
    by_cases hjn : j < next
    · have hce := dec_cond_eq ctx i0 j0 jstart j hsU hj0 hsj
      have hstep : satAdd i0 (jstart - j0) + (j - jstart) + 1 =
          satAdd i0 (jstart - j0) + ((j + 1) - jstart) := by omega
      have hcnt1 : cnt ctx i0 j0 j khi =
          (if condAt ctx i0 j0 j then 1 else 0) +
            cnt ctx i0 j0 (j + 1) khi :=
        cnt_succ ctx i0 j0 j khi (by omega)
      have hmax : max j next = max (j + 1) next := by omega
      by_cases hc : condAt ctx i0 j0 j
      · rw [hcnt1, if_pos hc] at hm
        have hrec := ih (j + 1) (m - 1) (by omega) (by omega)
        rw [← hstep] at hrec
        constructor
        · simp only [decLoopOkGo]
          rw [if_pos hjn, if_pos (hce.mpr hc), Bool.and_eq_true]
          exact ⟨by simp only [decide_eq_true_eq]; omega, hrec.1⟩
        · simp only [decLoopGo]
          rw [if_pos hjn, if_pos (hce.mpr hc), hmax]
          exact hrec.2
      · rw [hcnt1, if_neg hc] at hm
        have hrec := ih (j + 1) m (by omega) (by omega)
        rw [← hstep] at hrec
        constructor
        · simp only [decLoopOkGo]
          rw [if_pos hjn, if_neg (fun hx => hc (hce.mp hx))]
          exact hrec.1
        · simp only [decLoopGo]
          rw [if_pos hjn, if_neg (fun hx => hc (hce.mp hx)), hmax]
          exact hrec.2
    · constructor
      · simp only [decLoopOkGo]
        rw [if_neg hjn]
      · simp only [decLoopGo]
        rw [if_neg hjn]
        have hmx : max j next = j := by omega
        rw [hmx]
        exact hm

/-- `decLoop` as called from the skip branch (where the starting index is
`i0.saturating_add(j - j0)` at position `j` itself): never underflows and
preserves count domination. -/
theorem decLoop_spec (ctx : SaCtx) (i0 j0 next khi j m : Nat)
    (hsU : ctx.s.length ≤ U64 - 1) (hj0 : j0 ≤ j) (hnk : next ≤ khi)
    (hm : m ≥ cnt ctx i0 j0 j khi) :
    decLoopOk ctx next (satAdd i0 (j - j0)) j m = true ∧
      decLoop ctx next (satAdd i0 (j - j0)) j m ≥
        cnt ctx i0 j0 (max j next) khi := by
  have h := decLoopGo_spec ctx i0 j0 j next khi hsU hj0 hnk (next - j) j m
    (le_refl j) hm
  simp only [Nat.sub_self, Nat.add_zero] at h
  unfold decLoopOk decLoop
  exact h

/-- Shifting a substring match: if `s[i..i+n] = t[j..j+n]` then dropping the
first `d` positions still matches. -/
theorem substring_shift (s t : List Nat) (i j n d : Nat)
    (h : (s.drop i).take n = (t.drop j).take n) :
    (s.drop (i + d)).take (n - d) = (t.drop (j + d)).take (n - d) := by
  have h1 := congrArg (List.drop d) h
  rwa [List.drop_take, List.drop_take, List.drop_drop, List.drop_drop] at h1

/-- The substring invariant of the main search loop: the counted window
`[j, k)` of T (if nonempty) is entirely a copy of some substring of S, so
that the maximality of `search_lcp` forces the next match length to cover
it. -/
def SubInv (ctx : SaCtx) (j k : Nat) : Prop :=
  k ≤ j ∨ (k ≤ ctx.t.length ∧ ∃ p, p + (k - j) ≤ ctx.s.length ∧
    (ctx.s.drop p).take (k - j) = (ctx.t.drop j).take (k - j))

/-- Instrumented twin of `searchLoopGo`: `true` iff every `m -= 1`
executed by any skip branch of the whole loop run happens on a non-zero
`m`. -/
def searchLoopOkGo (ctx : SaCtx) (i0 j0 : Nat) :
    Nat → Nat → Nat → Nat → Bool
  | 0, _, _, _ => true
  | fuel + 1, j, k, m =>
    if j < ctx.t.length - ctx.small_match then
      let inn := ctx.sl (ctx.t.drop j)
      let i := inn.1
      let n := inn.2
      let km' := countLoop ctx i0 j0 (j + n) k m
      let k' := km'.1
      let m' := km'.2
      if n = 0 then
        searchLoopOkGo ctx i0 j0 fuel (j + 1) k' 0
      else if m' = n ∨ n ≤ ctx.small_match then
        searchLoopOkGo ctx i0 j0 fuel (j + n) k' 0
      else if n ≤ m' + ctx.mismatch_count then
        let next := if n ≤ ctx.long_suffix then j + 1
                    else j + max (bsearchLoop ctx i n j 0 n) 1
        decLoopOk ctx next (satAdd i0 (j - j0)) j m' &&
          searchLoopOkGo ctx i0 j0 fuel next k'
            (decLoop ctx next (satAdd i0 (j - j0)) j m')
      else true
    else true

/-- Instrumented twin of `search_next`: `true` iff no executed decrement of
`m` underflows during this call. -/
def search_next_ok (ctx : SaCtx) (st : SaState) : Bool :=
  if st.j0 = ctx.t.length ∧ st.b0 = 0 then true
  else searchLoopOkGo ctx st.i0 st.j0 (ctx.t.length - (st.j0 + st.n0))
    (st.j0 + st.n0) (st.j0 + st.n0) 0

/-- Main invariant argument: under the suffix-index contract, the counter
`m` always dominates the number of still-uncounted matching positions in
front of the cursor, so the skip branch never decrements a zero `m`. -/
theorem searchLoopOkGo_true (ctx : SaCtx) (hsl : SearchLcpSpec ctx.s ctx.sl)
    (hsU : ctx.s.length ≤ U64 - 1) (i0 j0 : Nat) :
    ∀ (fuel j k m : Nat), j0 ≤ j → m ≥ cnt ctx i0 j0 j k →
      SubInv ctx j k → searchLoopOkGo ctx i0 j0 fuel j k m = true := by
  intro fuel
  induction fuel with
  | zero =>
    intro j k m _ _ _
    simp only [searchLoopOkGo]
  | succ fuel ih =>
    intro j k m hj0 hm hsub
    by_cases hguard : j < ctx.t.length - ctx.small_match
    · simp only [searchLoopOkGo]
      rw [if_pos hguard]
      have hnle : (ctx.sl (ctx.t.drop j)).2 ≤ ctx.t.length - j :=
        sl_len_le ctx hsl j
      have hkle : k ≤ j + (ctx.sl (ctx.t.drop j)).2 := by
        rcases hsub with hk | ⟨hkt, p, hp, hps⟩
        · omega
        · have := hsl.maximal (ctx.t.drop j) p (k - j) hp
            (by simp only [List.length_drop]; omega) hps
          omega
      rw [countLoop_spec]
      simp only []
      have hkmax : max k (j + (ctx.sl (ctx.t.drop j)).2) =
          j + (ctx.sl (ctx.t.drop j)).2 := by omega
      rw [hkmax]
      have hm' : m + cnt ctx i0 j0 k (j + (ctx.sl (ctx.t.drop j)).2) ≥
          cnt ctx i0 j0 j (j + (ctx.sl (ctx.t.drop j)).2) := by
        rcases Nat.le_total j k with hjk | hjk
        · have := cnt_split ctx i0 j0 j k
            (j + (ctx.sl (ctx.t.drop j)).2) hjk hkle
          omega
        · have := cnt_split ctx i0 j0 k j
            (j + (ctx.sl (ctx.t.drop j)).2) hjk (by omega)
          omega
      by_cases hn0 : (ctx.sl (ctx.t.drop j)).2 = 0
      · rw [if_pos hn0]
        refine ih (j + 1) _ 0 (by omega) ?_ ?_
        · have hz := cnt_zero ctx i0 j0 (j + 1)
            (j + (ctx.sl (ctx.t.drop j)).2) (by omega)
          omega
        · exact Or.inl (by omega)
      · rw [if_neg hn0]
        by_cases hbr2 :
            m + cnt ctx i0 j0 k (j + (ctx.sl (ctx.t.drop j)).2) =
              (ctx.sl (ctx.t.drop j)).2 ∨
              (ctx.sl (ctx.t.drop j)).2 ≤ ctx.small_match
        · rw [if_pos hbr2]
          refine ih (j + (ctx.sl (ctx.t.drop j)).2) _ 0 (by omega) ?_ ?_
          · have hz := cnt_zero ctx i0 j0 (j + (ctx.sl (ctx.t.drop j)).2)
              (j + (ctx.sl (ctx.t.drop j)).2) (le_refl _)
            omega
          · exact Or.inl (le_refl _)
        · rw [if_neg hbr2]
          by_cases hbr3 : (ctx.sl (ctx.t.drop j)).2 ≤
              m + cnt ctx i0 j0 k (j + (ctx.sl (ctx.t.drop j)).2) +
                ctx.mismatch_count
          · rw [if_pos hbr3]
            by_cases hlong : (ctx.sl (ctx.t.drop j)).2 ≤ ctx.long_suffix
            · rw [if_pos hlong]
              have hnext1 : j + 1 ≤ j + 1 := le_refl _
              have hnext2 : j + 1 ≤ j + (ctx.sl (ctx.t.drop j)).2 := by
                omega
              have hdec := decLoop_spec ctx i0 j0 (j + 1)
                (j + (ctx.sl (ctx.t.drop j)).2) j
                (m + cnt ctx i0 j0 k (j + (ctx.sl (ctx.t.drop j)).2))
                hsU hj0 hnext2 hm'
              have hmx : max j (j + 1) = j + 1 := by omega
              rw [hmx] at hdec
              rw [Bool.and_eq_true]
              refine ⟨hdec.1, ih (j + 1) _ _ (by omega) hdec.2 ?_⟩
              right
              refine ⟨by omega,
                (ctx.sl (ctx.t.drop j)).1 + ((j + 1) - j), ?_, ?_⟩
              · have := hsl.len_le_rem (ctx.t.drop j)
                omega
              · have hms := substring_shift ctx.s ctx.t
                  (ctx.sl (ctx.t.drop j)).1 j (ctx.sl (ctx.t.drop j)).2
                  ((j + 1) - j) (hsl.match_eq (ctx.t.drop j))
                rw [show j + ((j + 1) - j) = j + 1 from by omega] at hms
                rw [show j + (ctx.sl (ctx.t.drop j)).2 - (j + 1) =
                  (ctx.sl (ctx.t.drop j)).2 - ((j + 1) - j) from by omega]
                exact hms
            · rw [if_neg hlong]
              have hble := bsearchLoop_le ctx (ctx.sl (ctx.t.drop j)).1
                (ctx.sl (ctx.t.drop j)).2 j 0 (ctx.sl (ctx.t.drop j)).2
                (Nat.zero_le _)
              have hnext2 :
                  j + max (bsearchLoop ctx (ctx.sl (ctx.t.drop j)).1
                      (ctx.sl (ctx.t.drop j)).2 j 0
                      (ctx.sl (ctx.t.drop j)).2) 1 ≤
                    j + (ctx.sl (ctx.t.drop j)).2 := by
                omega
              have hdec := decLoop_spec ctx i0 j0
                (j + max (bsearchLoop ctx (ctx.sl (ctx.t.drop j)).1
                  (ctx.sl (ctx.t.drop j)).2 j 0
                  (ctx.sl (ctx.t.drop j)).2) 1)
                (j + (ctx.sl (ctx.t.drop j)).2) j
                (m + cnt ctx i0 j0 k (j + (ctx.sl (ctx.t.drop j)).2))
                hsU hj0 hnext2 hm'
              have hmx : max j
                  (j + max (bsearchLoop ctx (ctx.sl (ctx.t.drop j)).1
                    (ctx.sl (ctx.t.drop j)).2 j 0
                    (ctx.sl (ctx.t.drop j)).2) 1) =
                  j + max (bsearchLoop ctx (ctx.sl (ctx.t.drop j)).1
                    (ctx.sl (ctx.t.drop j)).2 j 0
                    (ctx.sl (ctx.t.drop j)).2) 1 := by omega
              rw [hmx] at hdec
              rw [Bool.and_eq_true]
              refine ⟨hdec.1, ih _ _ _ (by omega) hdec.2 ?_⟩
              right
              refine ⟨by omega,
                (ctx.sl (ctx.t.drop j)).1 +
                  ((j + max (bsearchLoop ctx (ctx.sl (ctx.t.drop j)).1
                    (ctx.sl (ctx.t.drop j)).2 j 0
                    (ctx.sl (ctx.t.drop j)).2) 1) - j), ?_, ?_⟩
              · have := hsl.len_le_rem (ctx.t.drop j)
                omega
              · have hms := substring_shift ctx.s ctx.t
                  (ctx.sl (ctx.t.drop j)).1 j (ctx.sl (ctx.t.drop j)).2
                  ((j + max (bsearchLoop ctx (ctx.sl (ctx.t.drop j)).1
                    (ctx.sl (ctx.t.drop j)).2 j 0
                    (ctx.sl (ctx.t.drop j)).2) 1) - j)
                  (hsl.match_eq (ctx.t.drop j))
                rw [show j + ((j + max (bsearchLoop ctx
                    (ctx.sl (ctx.t.drop j)).1 (ctx.sl (ctx.t.drop j)).2 j 0
                    (ctx.sl (ctx.t.drop j)).2) 1) - j) =
                  j + max (bsearchLoop ctx (ctx.sl (ctx.t.drop j)).1
                    (ctx.sl (ctx.t.drop j)).2 j 0
                    (ctx.sl (ctx.t.drop j)).2) 1 from by omega] at hms
                rw [show j + (ctx.sl (ctx.t.drop j)).2 -
                    (j + max (bsearchLoop ctx (ctx.sl (ctx.t.drop j)).1
                      (ctx.sl (ctx.t.drop j)).2 j 0
                      (ctx.sl (ctx.t.drop j)).2) 1) =
                  (ctx.sl (ctx.t.drop j)).2 -
                    ((j + max (bsearchLoop ctx (ctx.sl (ctx.t.drop j)).1
                      (ctx.sl (ctx.t.drop j)).2 j 0
                      (ctx.sl (ctx.t.drop j)).2) 1) - j) from by omega]
                exact hms
          · rw [if_neg hbr3]
    · simp only [searchLoopOkGo]
      rw [if_neg hguard]

/-- C9: for every S, T, thresholds, suffix index obeying the `search_lcp`
contract, and every walker state, in `SaDiff::search_next` the counter `m`
is strictly positive at every point where the skip branch executes the
decrement `m -= 1` (each decremented position was previously counted by
the `k`-loop under the same byte-comparison condition), so the `usize`
subtraction never underflows: the instrumented run `search_next_ok`, which
checks `m ≠ 0` before every executed decrement, returns `true`. -/
theorem skip_decrement_never_underflows (ctx : SaCtx)
    (hsl : SearchLcpSpec ctx.s ctx.sl) (hsU : ctx.s.length ≤ U64 - 1)
    (st : SaState) : search_next_ok ctx st = true := by
  unfold search_next_ok
  split
  · rfl
  · refine searchLoopOkGo_true ctx hsl hsU st.i0 st.j0 _ (st.j0 + st.n0)
      (st.j0 + st.n0) 0 (by omega) ?_ (Or.inl (le_refl _))
    have hz := cnt_zero ctx st.i0 st.j0 (st.j0 + st.n0) (st.j0 + st.n0)
      (le_refl _)
    omega

/-- Witness for C9 at `S = []`, `T = [1, 2, 3]`, defaults, initial
state. -/
theorem skip_decrement_never_underflows_witness :
    (SearchLcpSpec [] (fun _ => (0, 0)) ∧
      ([] : List Nat).length ≤ U64 - 1) ∧
    search_next_ok ⟨[], [1, 2, 3], fun _ => (0, 0), 12, 8, 256⟩
      ⟨0, 0, 0, 0⟩ = true := by
  have hsl : SearchLcpSpec [] (fun _ => (0, 0)) := by
    refine ⟨fun q => by simp, fun q => by simp, fun q => by simp,
      fun q => by simp, fun q p k hpk hkq hm => by simp at hpk ⊢; omega⟩
  exact ⟨⟨hsl, by norm_num [U64]⟩,
    skip_decrement_never_underflows
      ⟨[], [1, 2, 3], fun _ => (0, 0), 12, 8, 256⟩ hsl
      (by norm_num [U64]) ⟨0, 0, 0, 0⟩⟩

/-! ## C10: the applier (`Context` in `src/bspatch.rs`) ignores `tsize` -/

/-- `u8::wrapping_add` on byte values. -/
def byteAdd (a b : Nat) : Nat := (a + b) % 256

/-- The applier state of `Context` (`src/bspatch.rs`): the source cursor
position, the pending (buffered, unflushed) bytes `buf[..n]`, the bytes
already written to the target, the remaining decompressed delta and extra
streams, and the running `total : u64`. -/
structure ApState where
  pos : Nat
  pend : List Nat
  out : List Nat
  delta : List Nat
  extra : List Nat
  total : Nat
deriving DecidableEq, Repr

/-- `Context::add`: the `while count > 0` loop, structurally recursive on
fuel (each iteration consumes `k ≥ 1` of `count` whenever `bsize ≥ 1`, so
`count` itself is sufficient fuel).  Each round reads `k` source bytes at
the cursor (`read_exact`, failing if fewer remain), `k` delta bytes
(failing if the delta stream is short), appends their wrapping byte sums
to the buffer, flushes the buffer to the target when full, and advances
`total` with the wrapping `u64` addition. -/
def addGo (src : List Nat) (bsize : Nat) :
    Nat → Nat → ApState → Except Unit ApState
  | 0, count, st => if count = 0 then .ok st else .error ()
  | fuel + 1, count, st =>
    if count = 0 then .ok st
    else
      let k := min count (bsize - st.pend.length)
      if st.pos + k ≤ src.length then
        if k ≤ st.delta.length then
          let pend' := st.pend ++
            List.zipWith byteAdd ((src.drop st.pos).take k)
              (st.delta.take k)
          if bsize ≤ pend'.length then
            addGo src bsize fuel (count - k)
              ⟨st.pos + k, [], st.out ++ pend', st.delta.drop k, st.extra,
                wrapAdd st.total k⟩
          else
            addGo src bsize fuel (count - k)
              ⟨st.pos + k, pend', st.out, st.delta.drop k, st.extra,
                wrapAdd st.total k⟩
        else .error ()
      else .error ()

/-- `Context::copy`: like `add` but reading from the extra stream and not
touching the source cursor. -/
def copyGo (bsize : Nat) : Nat → Nat → ApState → Except Unit ApState
  | 0, count, st => if count = 0 then .ok st else .error ()
  | fuel + 1, count, st =>
    if count = 0 then .ok st
    else
      let k := min count (bsize - st.pend.length)
      if k ≤ st.extra.length then
        let pend' := st.pend ++ st.extra.take k
        if bsize ≤ pend'.length then
          copyGo bsize fuel (count - k)
            ⟨st.pos, [], st.out ++ pend', st.delta, st.extra.drop k,
              wrapAdd st.total k⟩
        else
          copyGo bsize fuel (count - k)
            ⟨st.pos, pend', st.out, st.delta, st.extra.drop k,
              wrapAdd st.total k⟩
      else .error ()

/-- `Context::seek`: `Cursor::seek(SeekFrom::Current(offset))` on a `u64`
position; errors on a negative or `u64`-overflowing result. -/
def seekOp (st : ApState) (offset : Int) : Except Unit ApState :=
  if 0 ≤ (st.pos : Int) + offset ∧ (st.pos : Int) + offset < (U64 : Int) then
    .ok ⟨((st.pos : Int) + offset).toNat, st.pend, st.out, st.delta,
      st.extra, st.total⟩
  else .error ()

/-- Decoding of one 24-byte control record, as `Context::next` does it:
`add` and `copy` are `decode_int(..) as u64`, `seek` stays an `i64`. -/
def ctlDecode (l : List Nat) : Control :=
  ⟨i64AsU64 (decode_int l), i64AsU64 (decode_int (l.drop 8)),
    decode_int (l.drop 16)⟩

/-- `Context::apply`: the `while let Some(result) = self.next()` loop.
`Context::next` reads 24 bytes from the control stream via
`read_exact_or_eof`: end of stream ends the loop, a partial record (fewer
than 24 bytes left) is an `UnexpectedEof` error, and otherwise the decoded
control drives `add`, `copy` and `seek`.  After the loop the pending
buffer is flushed and `total` is returned.  Fuel is structural
(`|ctrls| + 1` suffices: every iteration consumes 24 bytes). -/
def applyGo (src : List Nat) (bsize : Nat) :
    Nat → List Nat → ApState → Except Unit (List Nat × Nat)
  | 0, _, _ => .error ()
  | fuel + 1, ctrls, st =>
    if ctrls.isEmpty then
      .ok (st.out ++ st.pend, st.total)
    else if ctrls.length < 24 then .error ()
    else
      let c := ctlDecode ctrls
      match addGo src bsize c.add c.add st with
      | .error e => .error e
      | .ok st1 =>
        match copyGo bsize c.copy c.copy st1 with
        | .error e => .error e
        | .ok st2 =>
          match seekOp st2 c.seek with
          | .error e => .error e
          | .ok st3 => applyGo src bsize fuel (ctrls.drop 24) st3

/-- `Context::apply` from the initial context built by `Context::new`. -/
def ctxApply (src ctrls delta extra : List Nat) (bsize : Nat) :
    Except Unit (List Nat × Nat) :=
  applyGo src bsize (ctrls.length + 1) ctrls ⟨0, [], [], delta, extra, 0⟩

/-- `Bspatch::new` followed by `Bspatch::apply`: parse the patch, feed the
three decompressed sections and the source to the applier context.  Note
`tsize` is not passed on: `Context::new` has no `tsize` argument. -/
def bspatchApply (patch source : List Nat)
    (decompress : List Nat → List Nat) (bsize : Nat) :
    Except Unit (List Nat × Nat) :=
  match parse patch with
  | ParseResult.ok pf =>
      ctxApply source (decompress pf.bz_ctrls) (decompress pf.bz_delta)
        (decompress pf.bz_extra) bsize
  | _ => .error ()

/-- `Bspatch::hint_target_size`. -/
def hint_target_size (pf : PatchFile) : Nat := pf.tsize

/-- Splitting the control stream into decoded 24-byte records (fueled by
the stream length). -/
def decodeCtrlsGo : Nat → List Nat → Option (List Control)
  | 0, l => if l = [] then some [] else none
  | fuel + 1, l =>
    if l = [] then some []
    else if l.length < 24 then none
    else
      match decodeCtrlsGo fuel (l.drop 24) with
      | some cs => some (ctlDecode l :: cs)
      | none => none

def decodeCtrls (l : List Nat) : Option (List Control) :=
  decodeCtrlsGo l.length l

/-- Self-consistency of a decoded control stream against a source of
length `slen` and delta/extra streams of lengths `dl`, `el`, threading the
source cursor: every `add` stays within the source and the delta stream,
every `copy` within the extra stream, and every `seek` lands the cursor in
`[0, 2^64)`. -/
def consistentFrom (slen : Nat) : List Control → Nat → Nat → Nat → Bool
  | [], _, _, _ => true
  | c :: cs, pos, dl, el =>
    decide (pos + c.add ≤ slen) && decide (c.add ≤ dl) &&
      decide (c.copy ≤ el) &&
      decide (0 ≤ (pos : Int) + (c.add : Int) + c.seek) &&
      decide ((pos : Int) + (c.add : Int) + c.seek < (U64 : Int)) &&
      consistentFrom slen cs ((pos : Int) + (c.add : Int) + c.seek).toNat
        (dl - c.add) (el - c.copy)

/-- The functional specification of the bytes the applier writes for a
control stream: per control, the wrapping byte sums of the source window
with the delta bytes, then the extra bytes, then the rest after seeking. -/
def applyOut (src : List Nat) :
    List Control → Nat → List Nat → List Nat → List Nat
  | [], _, _, _ => []
  | c :: cs, pos, delta, extra =>
    List.zipWith byteAdd ((src.drop pos).take c.add) (delta.take c.add) ++
      extra.take c.copy ++
      applyOut src cs ((pos : Int) + (c.add : Int) + c.seek).toNat
        (delta.drop c.add) (extra.drop c.copy)

theorem wrapAdd_lt (a b : Nat) : wrapAdd a b < U64 := by
  unfold wrapAdd U64
  omega

theorem wrapAdd_zero (a : Nat) (h : a < U64) : wrapAdd a 0 = a := by
  unfold wrapAdd
  rw [Nat.add_zero]
  exact Nat.mod_eq_of_lt h

theorem wrapAdd_wrapAdd (a b c : Nat) :
    wrapAdd (wrapAdd a b) c = wrapAdd a (b + c) := by
  unfold wrapAdd
  rw [Nat.mod_add_mod, Nat.add_assoc]

/-- The `add` loop succeeds exactly on the in-bounds reads and appends the
wrapping byte sums of the source window and the delta prefix to the
buffered output (the concatenation `out ++ pend` is flush-invariant). -/
theorem addGo_spec (src : List Nat) (bsize : Nat) (hb : 1 ≤ bsize) :
    ∀ (fuel count : Nat) (st : ApState), count ≤ fuel →
      st.pend.length < bsize → st.pos + count ≤ src.length →
      count ≤ st.delta.length → st.total < U64 →
      ∃ st', addGo src bsize fuel count st = .ok st' ∧
        st'.pos = st.pos + count ∧
        st'.delta = st.delta.drop count ∧
        st'.extra = st.extra ∧
        st'.total = wrapAdd st.total count ∧
        st'.pend.length < bsize ∧
        st'.out ++ st'.pend = st.out ++ st.pend ++
          List.zipWith byteAdd ((src.drop st.pos).take count)
            (st.delta.take count) := by
  intro fuel
  induction fuel with
  | zero =>
    intro count st hcf hpl hsrc hdl htot
    have hc0 : count = 0 := by omega
    subst hc0
    exact ⟨st, by simp [addGo], by omega, by simp, rfl,
      (wrapAdd_zero st.total htot).symm, hpl, by simp⟩
  | succ fuel ih =>
    intro count st hcf hpl hsrc hdl htot
    by_cases hc0 : count = 0
    · subst hc0
      exact ⟨st, by simp [addGo], by omega, by simp, rfl,
        (wrapAdd_zero st.total htot).symm, hpl, by simp⟩
    · simp only [addGo]
      rw [if_neg hc0]
      set k := min count (bsize - st.pend.length) with hk
      have hk1 : 1 ≤ k := by omega
      have hkc : k ≤ count := by omega
      rw [if_pos (show st.pos + k ≤ src.length by omega),
        if_pos (show k ≤ st.delta.length by omega)]
      have hlen : ((src.drop st.pos).take k).length =
          (st.delta.take k).length := by
        simp only [List.length_take, List.length_drop]
        omega
      have hZ : List.zipWith byteAdd ((src.drop st.pos).take count)
          (st.delta.take count) =
        List.zipWith byteAdd ((src.drop st.pos).take k)
            (st.delta.take k) ++
          List.zipWith byteAdd ((src.drop (st.pos + k)).take (count - k))
            ((st.delta.drop k).take (count - k)) := by
        have h1 : (src.drop st.pos).take count =
            (src.drop st.pos).take k ++
              (src.drop (st.pos + k)).take (count - k) := by
          conv_lhs => rw [show count = k + (count - k) from by omega]
          rw [List.take_add, List.drop_drop]
        have h2 : st.delta.take count =
            st.delta.take k ++ (st.delta.drop k).take (count - k) := by
          conv_lhs => rw [show count = k + (count - k) from by omega]
          rw [List.take_add]
        rw [h1, h2, List.zipWith_append _ _ _ _ _ hlen]
      by_cases hfl : bsize ≤ (st.pend ++
          List.zipWith byteAdd ((src.drop st.pos).take k)
            (st.delta.take k)).length
      · rw [if_pos hfl]
        obtain ⟨st', heq, hpos, hdelta, hextra, htot', hpend', hout⟩ :=
          ih (count - k)
            ⟨st.pos + k, [],
              st.out ++ (st.pend ++
                List.zipWith byteAdd ((src.drop st.pos).take k)
                  (st.delta.take k)),
              st.delta.drop k, st.extra, wrapAdd st.total k⟩
            (by omega) (by simpa using hb)
            (by simp only []; omega)
            (by simp only [List.length_drop]; omega)
            (by simp only []; exact wrapAdd_lt _ _)
        simp only [] at hpos hdelta hextra htot' hout
        refine ⟨st', heq, by omega, ?_, hextra, ?_, hpend', ?_⟩
        · rw [hdelta, List.drop_drop]
          congr 1
          omega
        · rw [htot', wrapAdd_wrapAdd,
            show k + (count - k) = count from by omega]
        · rw [hout, hZ]
          simp [List.append_assoc]
      · rw [if_neg hfl]
        obtain ⟨st', heq, hpos, hdelta, hextra, htot', hpend', hout⟩ :=
          ih (count - k)
            ⟨st.pos + k,
              st.pend ++ List.zipWith byteAdd ((src.drop st.pos).take k)
                (st.delta.take k),
              st.out, st.delta.drop k, st.extra, wrapAdd st.total k⟩
            (by omega) (by simp only []; omega)
            (by simp only []; omega)
            (by simp only [List.length_drop]; omega)
            (by simp only []; exact wrapAdd_lt _ _)
        simp only [] at hpos hdelta hextra htot' hout
        refine ⟨st', heq, by omega, ?_, hextra, ?_, hpend', ?_⟩
        · rw [hdelta, List.drop_drop]
          congr 1
          omega
        · rw [htot', wrapAdd_wrapAdd,
            show k + (count - k) = count from by omega]
        · rw [hout, hZ]
          simp [List.append_assoc]

/-- The `copy` loop succeeds when the extra stream is long enough and
appends its prefix to the buffered output. -/
theorem copyGo_spec (bsize : Nat) (hb : 1 ≤ bsize) :
    ∀ (fuel count : Nat) (st : ApState), count ≤ fuel →
      st.pend.length < bsize → count ≤ st.extra.length →
      st.total < U64 →
      ∃ st', copyGo bsize fuel count st = .ok st' ∧
        st'.pos = st.pos ∧
        st'.delta = st.delta ∧
        st'.extra = st.extra.drop count ∧
        st'.total = wrapAdd st.total count ∧
        st'.pend.length < bsize ∧
        st'.out ++ st'.pend = st.out ++ st.pend ++ st.extra.take count := by
  intro fuel
  induction fuel with
  | zero =>
    intro count st hcf hpl hel htot
    have hc0 : count = 0 := by omega
    subst hc0
    exact ⟨st, by simp [copyGo], rfl, rfl, by simp,
      (wrapAdd_zero st.total htot).symm, hpl, by simp⟩
  | succ fuel ih =>
    intro count st hcf hpl hel htot
    by_cases hc0 : count = 0
    · subst hc0
      exact ⟨st, by simp [copyGo], rfl, rfl, by simp,
        (wrapAdd_zero st.total htot).symm, hpl, by simp⟩
    · simp only [copyGo]
      rw [if_neg hc0]
      set k := min count (bsize - st.pend.length) with hk
      have hk1 : 1 ≤ k := by omega
      have hkc : k ≤ count := by omega
      rw [if_pos (show k ≤ st.extra.length by omega)]
      have hT : st.extra.take count =
          st.extra.take k ++ (st.extra.drop k).take (count - k) := by
        conv_lhs => rw [show count = k + (count - k) from by omega]
        rw [List.take_add]
      by_cases hfl : bsize ≤ (st.pend ++ st.extra.take k).length
      · rw [if_pos hfl]
        obtain ⟨st', heq, hpos, hdelta, hextra, htot', hpend', hout⟩ :=
          ih (count - k)
            ⟨st.pos, [], st.out ++ (st.pend ++ st.extra.take k),
              st.delta, st.extra.drop k, wrapAdd st.total k⟩
            (by omega) (by simpa using hb)
            (by simp only [List.length_drop]; omega)
            (by simp only []; exact wrapAdd_lt _ _)
        simp only [] at hpos hdelta hextra htot' hout
        refine ⟨st', heq, hpos, hdelta, ?_, ?_, hpend', ?_⟩
        · rw [hextra, List.drop_drop]
          congr 1
          omega
        · rw [htot', wrapAdd_wrapAdd,
            show k + (count - k) = count from by omega]
        · rw [hout, hT]
          simp [List.append_assoc]
      · rw [if_neg hfl]
        obtain ⟨st', heq, hpos, hdelta, hextra, htot', hpend', hout⟩ :=
          ih (count - k)
            ⟨st.pos, st.pend ++ st.extra.take k, st.out,
              st.delta, st.extra.drop k, wrapAdd st.total k⟩
            (by omega) (by simp only []; omega)
            (by simp only [List.length_drop]; omega)
            (by simp only []; exact wrapAdd_lt _ _)
        simp only [] at hpos hdelta hextra htot' hout
        refine ⟨st', heq, hpos, hdelta, ?_, ?_, hpend', ?_⟩
        · rw [hextra, List.drop_drop]
          congr 1
          omega
        · rw [htot', wrapAdd_wrapAdd,
            show k + (count - k) = count from by omega]
        · rw [hout, hT]
          simp [List.append_assoc]

theorem decodeCtrlsGo_congr :
    ∀ (f1 f2 : Nat) (l : List Nat), l.length ≤ f1 → l.length ≤ f2 →
      decodeCtrlsGo f1 l = decodeCtrlsGo f2 l := by
  intro f1
  induction f1 with
  | zero =>
    intro f2 l h1 h2
    have hl : l = [] := List.eq_nil_of_length_eq_zero (by omega)
    subst hl
    cases f2 with
    | zero => rfl
    | succ f2 => simp [decodeCtrlsGo]
  | succ f1 ih =>
    intro f2 l h1 h2
    by_cases hl : l = []
    · subst hl
      cases f2 with
      | zero => rfl
      | succ f2 => simp [decodeCtrlsGo]
    · cases f2 with
      | zero =>
        exact absurd (List.eq_nil_of_length_eq_zero (by omega)) hl
      | succ f2 =>
        simp only [decodeCtrlsGo]
        rw [if_neg hl, if_neg hl]
        by_cases h24 : l.length < 24
        · rw [if_pos h24, if_pos h24]
        · rw [if_neg h24, if_neg h24]
          rw [ih f2 (l.drop 24) (by simp [List.length_drop]; omega)
            (by simp [List.length_drop]; omega)]

theorem decodeCtrls_eq_nil (l : List Nat) (h : decodeCtrls l = some []) :
    l = [] := by
  by_contra hl
  unfold decodeCtrls at h
  cases hf : l.length with
  | zero => exact hl (List.eq_nil_of_length_eq_zero hf)
  | succ f =>
    rw [hf] at h
    simp only [decodeCtrlsGo] at h
    rw [if_neg hl] at h
    by_cases h24 : l.length < 24
    · rw [if_pos h24] at h
      exact Option.noConfusion h
    · rw [if_neg h24] at h
      cases hrec : decodeCtrlsGo f (l.drop 24) with
      | none => rw [hrec] at h; exact Option.noConfusion h
      | some cs =>
        rw [hrec] at h
        simp at h

theorem decodeCtrls_cons (l : List Nat) (c : Control) (cs : List Control)
    (h : decodeCtrls l = some (c :: cs)) :
    24 ≤ l.length ∧ c = ctlDecode l ∧ decodeCtrls (l.drop 24) = some cs := by
  unfold decodeCtrls at h
  cases hf : l.length with
  | zero =>
    rw [hf] at h
    have hl : l = [] := List.eq_nil_of_length_eq_zero hf
    rw [hl] at h
    simp [decodeCtrlsGo] at h
  | succ f =>
    rw [hf] at h
    have hl : l ≠ [] := by
      intro he
      rw [he] at hf
      simp at hf
    simp only [decodeCtrlsGo] at h
    rw [if_neg hl] at h
    by_cases h24 : l.length < 24
    · rw [if_pos h24] at h
      exact Option.noConfusion h
    · rw [if_neg h24] at h
      cases hrec : decodeCtrlsGo f (l.drop 24) with
      | none => rw [hrec] at h; exact Option.noConfusion h
      | some cs' =>
        rw [hrec] at h
        simp only [Option.some.injEq, List.cons.injEq] at h
        refine ⟨by omega, h.1.symm, ?_⟩
        rw [← h.2]
        unfold decodeCtrls
        rw [← hrec]
        exact decodeCtrlsGo_congr _ _ _ (le_refl _)
          (by simp [List.length_drop]; omega)

/-- The functional output of a self-consistent control stream has exactly
`sum (add + copy)` bytes. -/
theorem applyOut_length (src : List Nat) :
    ∀ (cs : List Control) (pos : Nat) (delta extra : List Nat),
      consistentFrom src.length cs pos delta.length extra.length = true →
      (applyOut src cs pos delta extra).length = sumAddCopy cs := by
  intro cs
  induction cs with
  | nil =>
    intro pos delta extra _
    simp [applyOut, sumAddCopy]
  | cons c cs ih =>
    intro pos delta extra hcons
    simp only [consistentFrom, Bool.and_eq_true, decide_eq_true_eq] at hcons
    obtain ⟨⟨⟨⟨⟨hadd, hdl⟩, hel⟩, hs0⟩, hsU⟩, hrest⟩ := hcons
    have hrec := ih ((pos : Int) + (c.add : Int) + c.seek).toNat
      (delta.drop c.add) (extra.drop c.copy)
      (by simpa [List.length_drop] using hrest)
    rw [sumAddCopy_cons]
    simp only [applyOut, List.length_append, hrec]
    simp only [List.length_zipWith, List.length_take, List.length_drop]
    omega

/-- The main applier loop on a decodable, self-consistent control stream:
it succeeds, writes exactly the functional output, and accumulates the
wrapped sum of `add + copy` into `total`. -/
theorem applyGo_spec (src : List Nat) (bsize : Nat) (hb : 1 ≤ bsize) :
    ∀ (cs : List Control) (ctrls : List Nat) (fuel : Nat) (st : ApState),
      ctrls.length < fuel →
      decodeCtrls ctrls = some cs →
      consistentFrom src.length cs st.pos st.delta.length
        st.extra.length = true →
      st.pend.length < bsize → st.total < U64 →
      applyGo src bsize fuel ctrls st =
        .ok (st.out ++ st.pend ++ applyOut src cs st.pos st.delta st.extra,
          wrapAdd st.total (sumAddCopy cs)) := by
  intro cs
  induction cs with
  | nil =>
    intro ctrls fuel st hfl hdec hcons hpend htot
    have hc : ctrls = [] := decodeCtrls_eq_nil ctrls hdec
    subst hc
    cases fuel with
    | zero => exact absurd hfl (Nat.not_lt_zero _)
    | succ f =>
      have he : applyGo src bsize (f + 1) [] st =
          .ok (st.out ++ st.pend, st.total) := rfl
      rw [he, show applyOut src [] st.pos st.delta st.extra = [] from rfl,
        show sumAddCopy [] = 0 from rfl, wrapAdd_zero st.total htot]
      simp
  | cons c cs ih =>
    intro ctrls fuel st hfl hdec hcons hpend htot
    obtain ⟨h24, hc, hdrest⟩ := decodeCtrls_cons ctrls c cs hdec
    simp only [consistentFrom, Bool.and_eq_true, decide_eq_true_eq] at hcons
    obtain ⟨⟨⟨⟨⟨hadd, hdl⟩, hel⟩, hs0⟩, hsU⟩, hrest⟩ := hcons
    cases fuel with
    | zero => omega
    | succ f =>
      simp only [applyGo]
      rw [if_neg (show ¬ctrls.isEmpty = true by
        rw [List.isEmpty_iff]
        intro he
        rw [he] at h24
        simp at h24)]
      rw [if_neg (show ¬ctrls.length < 24 by omega)]
      rw [← hc]
      obtain ⟨st1, heq1, hpos1, hdelta1, hextra1, htot1, hpend1, hout1⟩ :=
        addGo_spec src bsize hb c.add c.add st (le_refl _) hpend
          (by omega) hdl htot
      rw [heq1]
      simp only []
      obtain ⟨st2, heq2, hpos2, hdelta2, hextra2, htot2, hpend2, hout2⟩ :=
        copyGo_spec bsize hb c.copy c.copy st1 (le_refl _) hpend1
          (by rw [hextra1]; exact hel) (by rw [htot1]; exact wrapAdd_lt _ _)
      rw [heq2]
      simp only []
      have hpos2' : st2.pos = st.pos + c.add := by rw [hpos2, hpos1]
      have hcast : ((st2.pos : Int) + c.seek) =
          (st.pos : Int) + (c.add : Int) + c.seek := by
        rw [hpos2']
        push_cast
        ring
      unfold seekOp
      rw [if_pos (by rw [hcast]; exact ⟨hs0, hsU⟩)]
      simp only []
      have hrec := ih (ctrls.drop 24) f
        ⟨((st2.pos : Int) + c.seek).toNat, st2.pend, st2.out, st2.delta,
          st2.extra, st2.total⟩
        (by simp only [List.length_drop]; omega)
        hdrest
        (by
          simp only []
          rw [hcast, hdelta2, hdelta1, hextra2, hextra1]
          simp only [List.length_drop]
          exact hrest)
        (by simp only []; exact hpend2)
        (by simp only []; rw [htot2]; exact wrapAdd_lt _ _)
      rw [hrec]
      simp only []
      have hOut : st2.out ++ st2.pend ++
          applyOut src cs (((st2.pos : Int) + c.seek).toNat) st2.delta
            st2.extra =
          st.out ++ st.pend ++
            applyOut src (c :: cs) st.pos st.delta st.extra := by
        rw [hout2, hout1, hcast, hdelta2, hdelta1, hextra2, hextra1]
        simp only [applyOut]
        simp [List.append_assoc]
      have hTot : wrapAdd st2.total (sumAddCopy cs) =
          wrapAdd st.total (sumAddCopy (c :: cs)) := by
        rw [htot2, htot1, wrapAdd_wrapAdd, wrapAdd_wrapAdd,
          sumAddCopy_cons]
        exact congrArg (wrapAdd st.total) (by omega)
      rw [hOut, hTot]

/-- C10: the applier never checks the header's `tsize` field against the
bytes actually produced.  For every patch that parses successfully
(`parse patch = ok pf`) and whose control, delta and extra streams are
self-consistent, `apply` succeeds and returns the actual count of bytes
written — the sum of `add + copy` over the decoded controls, which also
equals the length of the produced target — with no constraint relating
that count to `pf.tsize`.  Moreover the applied result factors through the
three compressed sections alone (`Context::new` receives no `tsize`), and
`tsize` is exposed only through `hint_target_size`. -/
theorem applier_ignores_tsize (patch source : List Nat)
    (decompress : List Nat → List Nat) (bsize : Nat) (hb : 1 ≤ bsize)
    (pf : PatchFile) (hp : parse patch = ParseResult.ok pf)
    (cs : List Control)
    (hdec : decodeCtrls (decompress pf.bz_ctrls) = some cs)
    (hcons : consistentFrom source.length cs 0
      (decompress pf.bz_delta).length (decompress pf.bz_extra).length
        = true)
    (hsum : sumAddCopy cs < U64) :
    bspatchApply patch source decompress bsize =
        ctxApply source (decompress pf.bz_ctrls) (decompress pf.bz_delta)
          (decompress pf.bz_extra) bsize ∧
      (∃ out : List Nat,
        bspatchApply patch source decompress bsize =
          Except.ok (out, sumAddCopy cs) ∧ out.length = sumAddCopy cs) ∧
      hint_target_size pf = pf.tsize := by
  have hfac : bspatchApply patch source decompress bsize =
      ctxApply source (decompress pf.bz_ctrls) (decompress pf.bz_delta)
        (decompress pf.bz_extra) bsize := by
    unfold bspatchApply
    rw [hp]
  have happ := applyGo_spec source bsize hb cs (decompress pf.bz_ctrls)
    ((decompress pf.bz_ctrls).length + 1)
    ⟨0, [], [], decompress pf.bz_delta, decompress pf.bz_extra, 0⟩
    (by omega) hdec (by simp only []; exact hcons)
    (by simp only [List.length_nil]; omega) (by norm_num [U64])
  refine ⟨hfac, ⟨applyOut source cs 0 (decompress pf.bz_delta)
    (decompress pf.bz_extra), ?_, ?_⟩, rfl⟩
  · rw [hfac]
    unfold ctxApply
    rw [happ]
    simp only [List.nil_append]
    rw [show wrapAdd 0 (sumAddCopy cs) = sumAddCopy cs from by
      unfold wrapAdd
      rw [Nat.zero_add]
      exact Nat.mod_eq_of_lt hsum]
  · exact applyOut_length source cs 0 _ _ hcons

/-- A concrete patch for the C10 witness: one control
`{add: 2, copy: 1, seek: 0}`, delta `[1, 1]`, extra `[5]`, and a
deliberately wrong `tsize = 99` in the header (the actual byte count is
`3`). -/
def c10Ctrls : List Nat := encode_int 2 ++ encode_int 1 ++ encode_int 0

def c10Patch : List Nat :=
  magicBytes ++ encode_int 24 ++ encode_int 2 ++ encode_int 99 ++
    c10Ctrls ++ [1, 1] ++ [5]

/-- Witness for C10: the concrete patch above applied to source
`[10, 20]` with identity decompression and buffer size 128; its header
claims `tsize = 99` yet `apply` succeeds and returns 3. -/
theorem applier_ignores_tsize_witness :
    (1 ≤ 128 ∧
      parse c10Patch = ParseResult.ok ⟨99, c10Ctrls, [1, 1], [5]⟩ ∧
      decodeCtrls (id c10Ctrls) = some [⟨2, 1, 0⟩] ∧
      consistentFrom ([10, 20] : List Nat).length [⟨2, 1, 0⟩] 0
        (id [1, 1] : List Nat).length (id [5] : List Nat).length = true ∧
      sumAddCopy [⟨2, 1, 0⟩] < U64) ∧
    (bspatchApply c10Patch [10, 20] id 128 =
        ctxApply [10, 20] (id c10Ctrls) (id [1, 1]) (id [5]) 128 ∧
      (∃ out : List Nat, bspatchApply c10Patch [10, 20] id 128 =
          Except.ok (out, sumAddCopy [⟨2, 1, 0⟩]) ∧
        out.length = sumAddCopy [⟨2, 1, 0⟩]) ∧
      hint_target_size ⟨99, c10Ctrls, [1, 1], [5]⟩ =
        (⟨99, c10Ctrls, [1, 1], [5]⟩ : PatchFile).tsize) :=
  ⟨⟨by norm_num, by decide, by decide, by decide, by decide⟩,
    applier_ignores_tsize c10Patch [10, 20] id 128 (by norm_num)
      ⟨99, c10Ctrls, [1, 1], [5]⟩ (by decide) [⟨2, 1, 0⟩] (by decide)
      (by decide) (by decide)⟩

/-! ## C1: the full round trip `apply (compare S T) S = T` -/

theorem i64AsU64_natCast (n : Nat) (h : n < U64) :
    i64AsU64 ((n : Nat) : Int) = n := by
  unfold i64AsU64 U64
  simp only [U64] at h
  omega

/-- `parse` succeeds on a well-formed packed patch and returns exactly the
three sections and the declared target size. -/
theorem parse_header (bzc bzd bze : List Nat) (tsize : Nat)
    (ht : tsize < I64H) (hc : bzc.length < I64H) (hd : bzd.length < I64H)
    (hU : 32 + bzc.length + bzd.length < U64) :
    parse (magicBytes ++ (encode_int (toI64 bzc.length) ++
        (encode_int (toI64 bzd.length) ++ (encode_int (toI64 tsize) ++
        (bzc ++ (bzd ++ bze)))))) =
      ParseResult.ok ⟨tsize, bzc, bzd, bze⟩ := by
  set patch := magicBytes ++ (encode_int (toI64 bzc.length) ++
    (encode_int (toI64 bzd.length) ++ (encode_int (toI64 tsize) ++
    (bzc ++ (bzd ++ bze))))) with hpatch
  have hm8 : magicBytes.length = 8 := rfl
  have hlen : patch.length = 32 + (bzc.length + (bzd.length + bze.length)) := by
    rw [hpatch]
    simp [magicBytes, encode_int_length]
    omega
  have htake8 : patch.take 8 = magicBytes := by
    rw [hpatch, show (8 : Nat) = magicBytes.length from rfl,
      List.take_left]
  have hdrop8 : patch.drop 8 = encode_int (toI64 bzc.length) ++
      (encode_int (toI64 bzd.length) ++ (encode_int (toI64 tsize) ++
      (bzc ++ (bzd ++ bze)))) := by
    rw [hpatch, drop_eight_append _ hm8]
  have hdrop16 : patch.drop 16 = encode_int (toI64 bzd.length) ++
      (encode_int (toI64 tsize) ++ (bzc ++ (bzd ++ bze))) := by
    rw [drop_sixteen_split, hdrop8, drop_eight_append _ (encode_int_length _)]
  have hdrop24 : patch.drop 24 = encode_int (toI64 tsize) ++
      (bzc ++ (bzd ++ bze)) := by
    rw [drop_twentyfour_split, hdrop16,
      drop_eight_append _ (encode_int_length _)]
  have hdrop32 : patch.drop 32 = bzc ++ (bzd ++ bze) := by
    have h1 : patch.drop 32 = (patch.drop 24).drop 8 := by
      rw [List.drop_drop]
    rw [h1, hdrop24, drop_eight_append _ (encode_int_length _)]
  have hdc : i64AsU64 (decode_int (patch.drop 8)) = bzc.length := by
    rw [hdrop8, decode_int_append _ _ (encode_int_length _),
      decode_encode_nat _ hc, i64AsU64_natCast _ (by
        simp only [I64H] at hc
        simp only [U64]
        omega)]
  have hdd : i64AsU64 (decode_int (patch.drop 16)) = bzd.length := by
    rw [hdrop16, decode_int_append _ _ (encode_int_length _),
      decode_encode_nat _ hd, i64AsU64_natCast _ (by
        simp only [I64H] at hd
        simp only [U64]
        omega)]
  have hdt : i64AsU64 (decode_int (patch.drop 24)) = tsize := by
    rw [hdrop24, decode_int_append _ _ (encode_int_length _),
      decode_encode_nat _ ht, i64AsU64_natCast _ (by
        simp only [I64H] at ht
        simp only [U64]
        omega)]
  unfold parse
  have hg0 : ¬(patch.length < 32 ∨ patch.take 8 ≠ magicBytes) := by
    push_neg
    refine ⟨by simp only [hlen]; omega, by rw [htake8]⟩
  rw [if_neg hg0]
  simp only []
  rw [hdc, hdd, hdt]
  have hw1 : wrapAdd 32 bzc.length = 32 + bzc.length := by
    unfold wrapAdd U64
    simp only [I64H] at hc
    omega
  have hw2 : wrapAdd (32 + bzc.length) bzd.length =
      32 + bzc.length + bzd.length := by
    unfold wrapAdd U64
    simp only [U64] at hU
    omega
  rw [hw1, hw2]
  have hg1 : ¬(32 + bzc.length + bzd.length > patch.length) := by
    simp only [hlen]
    omega
  rw [if_neg hg1, hdrop32]
  have hg2 : ¬(bzc.length > (bzc ++ (bzd ++ bze)).length) := by
    simp only [List.length_append]
    omega
  rw [if_neg hg2]
  have ht1 : (bzc ++ (bzd ++ bze)).take bzc.length = bzc :=
    List.take_left _ _
  have hd1 : (bzc ++ (bzd ++ bze)).drop bzc.length = bzd ++ bze :=
    List.drop_left _ _
  rw [ht1, hd1]
  have hg3 : ¬(bzd.length > (bzd ++ bze).length) := by
    simp only [List.length_append]
    omega
  rw [if_neg hg3]
  have ht2 : (bzd ++ bze).take bzd.length = bzd := List.take_left _ _
  have hd2 : (bzd ++ bze).drop bzd.length = bze := List.drop_left _ _
  rw [ht2, hd2]

theorem drop_take_split (l : List Nat) (a m n : Nat) :
    (l.drop a).take (m + n) = (l.drop a).take m ++ (l.drop (a + m)).take n := by
  rw [List.take_add, List.drop_drop]

/-- The delta loop produces the plain truncated byte-difference stream,
independent of the chunking. -/
theorem packDeltaLoopGo_eq (s t : List Nat) (bsize : Nat) (hb : 1 ≤ bsize) :
    ∀ (fuel n spos tpos : Nat), n ≤ fuel →
      packDeltaLoopGo s t bsize fuel n spos tpos =
        (List.zipWith byteSub (s.drop spos) (t.drop tpos)).take n := by
  intro fuel
  induction fuel with
  | zero =>
    intro n spos tpos hn
    have : n = 0 := by omega
    subst this
    simp [packDeltaLoopGo]
  | succ fuel ih =>
    intro n spos tpos hn
    match n with
    | 0 => simp [packDeltaLoopGo]
    | n' + 1 =>
      simp only [packDeltaLoopGo]
      rw [if_neg (by omega)]
      set k := min (n' + 1) bsize with hk
      have hk1 : 1 ≤ k := by omega
      have hkn : k ≤ n' + 1 := by omega
      rw [ih (n' + 1 - k) (spos + k) (tpos + k) (by omega)]
      have hz : List.zipWith byteSub (s.drop (spos + k)) (t.drop (tpos + k)) =
          (List.zipWith byteSub (s.drop spos) (t.drop tpos)).drop k := by
        rw [List.drop_zipWith, List.drop_drop, List.drop_drop]
      rw [hz, ← List.take_add,
        show k + (n' + 1 - k) = n' + 1 from by omega]

theorem packDeltaLoop_eq (s t : List Nat) (bsize : Nat) (hb : 1 ≤ bsize)
    (n spos tpos : Nat) :
    packDeltaLoop s t bsize n spos tpos =
      List.zipWith byteSub ((s.drop spos).take n) ((t.drop tpos).take n) := by
  unfold packDeltaLoop
  rw [packDeltaLoopGo_eq s t bsize hb n n spos tpos (le_refl _),
    List.take_zipWith]

/-- Adding back the wrapping byte difference recovers the target bytes. -/
theorem zipWith_byteAdd_byteSub :
    ∀ (xs ys : List Nat), (∀ b ∈ ys, b < 256) → xs.length = ys.length →
      List.zipWith byteAdd xs (List.zipWith byteSub xs ys) = ys := by
  intro xs
  induction xs with
  | nil =>
    intro ys h hl
    cases ys with
    | nil => rfl
    | cons y ys => simp at hl
  | cons x xs ih =>
    intro ys h hl
    cases ys with
    | nil => simp at hl
    | cons y ys =>
      simp only [List.zipWith]
      rw [ih ys (fun b hb => h b (by simp [hb])) (by simpa using hl)]
      have hy : y < 256 := h y (by simp)
      have hxy : byteAdd x (byteSub x y) = y := by
        unfold byteAdd byteSub
        omega
      rw [hxy]

/-- `sliceRange t a (a + n)` is the window `t[a..a+n]`. -/
theorem sliceRange_window (l : List Nat) (a n : Nat) :
    sliceRange l a (a + n) = (l.drop a).take n := by
  unfold sliceRange
  rw [List.drop_take, Nat.add_sub_cancel_left]

/-- Decoding one packed control block. -/
theorem ctlDecode_encode (a cop : Nat) (sk : Int) (rest : List Nat)
    (ha : a < I64H) (hcop : cop < I64H)
    (h1 : -(9223372036854775807 : Int) ≤ sk)
    (h2 : sk ≤ 9223372036854775807) :
    ctlDecode ((encode_int (toI64 a) ++ encode_int (toI64 cop) ++
      encode_int sk) ++ rest) = ⟨a, cop, sk⟩ := by
  have hassoc : (encode_int (toI64 a) ++ encode_int (toI64 cop) ++
      encode_int sk) ++ rest =
      encode_int (toI64 a) ++ (encode_int (toI64 cop) ++
        (encode_int sk ++ rest)) := by
    simp [List.append_assoc]
  rw [hassoc]
  have haU : a < U64 := by
    simp only [I64H] at ha
    simp only [U64]
    omega
  have hcopU : cop < U64 := by
    simp only [I64H] at hcop
    simp only [U64]
    omega
  have f1 : i64AsU64 (decode_int (encode_int (toI64 a) ++
      (encode_int (toI64 cop) ++ (encode_int sk ++ rest)))) = a := by
    rw [decode_int_append _ _ (encode_int_length _), decode_encode_nat _ ha,
      i64AsU64_natCast _ haU]
  have hdrop8 : (encode_int (toI64 a) ++ (encode_int (toI64 cop) ++
      (encode_int sk ++ rest))).drop 8 =
      encode_int (toI64 cop) ++ (encode_int sk ++ rest) :=
    drop_eight_append _ (encode_int_length _)
  have hdrop16 : (encode_int (toI64 a) ++ (encode_int (toI64 cop) ++
      (encode_int sk ++ rest))).drop 16 = encode_int sk ++ rest := by
    rw [drop_sixteen_split, hdrop8, drop_eight_append _ (encode_int_length _)]
  have f2 : i64AsU64 (decode_int ((encode_int (toI64 a) ++
      (encode_int (toI64 cop) ++ (encode_int sk ++ rest))).drop 8)) = cop := by
    rw [hdrop8, decode_int_append _ _ (encode_int_length _),
      decode_encode_nat _ hcop, i64AsU64_natCast _ hcopU]
  have f3 : decode_int ((encode_int (toI64 a) ++ (encode_int (toI64 cop) ++
      (encode_int sk ++ rest))).drop 16) = sk := by
    rw [hdrop16, decode_int_append _ _ (encode_int_length _),
      decode_int_encode_int sk h1 h2]
  unfold ctlDecode
  rw [f1, f2, f3]

/-- Building one decoded control record on top of a decodable tail. -/
theorem decodeCtrls_build (l rest : List Nat) (c : Control)
    (cs : List Control) (h24 : l.length = 24)
    (hdec : ctlDecode (l ++ rest) = c)
    (hrest : decodeCtrls rest = some cs) :
    decodeCtrls (l ++ rest) = some (c :: cs) := by
  unfold decodeCtrls
  have hlen : (l ++ rest).length = 23 + rest.length + 1 := by
    simp [h24]
    omega
  rw [hlen]
  simp only [decodeCtrlsGo]
  rw [if_neg (show ¬(l ++ rest) = [] by
    intro he
    have := congrArg List.length he
    simp [h24] at this)]
  rw [if_neg (show ¬(l ++ rest).length < 24 by
    simp [h24])]
  have hdrop : (l ++ rest).drop 24 = rest := by
    rw [show (24 : Nat) = l.length from h24.symm, List.drop_left]
  rw [hdrop, decodeCtrlsGo_congr (23 + rest.length) rest.length rest
    (by omega) (le_refl _)]
  have hr : decodeCtrlsGo rest.length rest = some cs := hrest
  rw [hr, hdec]

/-- The heart of the round trip: for any valid control chain, the packed
control stream decodes back to the chain, the packed delta/extra streams
are self-consistent with it, and the applier's functional output is
exactly the covered window of T. -/
theorem chain_pack_apply (s t : List Nat) (bsize : Nat) (hb : 1 ≤ bsize)
    (hs63 : s.length < I64H) (ht63 : t.length < I64H)
    (ht256 : ∀ b ∈ t, b < 256) :
    ∀ {spos tpos spos' tpos' : Nat} {cs : List Control},
      ValidChain s t spos tpos cs spos' tpos' →
      decodeCtrls (packLoop s t bsize cs spos tpos).1 = some cs ∧
      consistentFrom s.length cs spos
          (packLoop s t bsize cs spos tpos).2.1.length
          (packLoop s t bsize cs spos tpos).2.2.length = true ∧
      applyOut s cs spos (packLoop s t bsize cs spos tpos).2.1
          (packLoop s t bsize cs spos tpos).2.2 =
        (t.drop tpos).take (tpos' - tpos) := by
  intro spos tpos spos' tpos' cs hchain
  induction hchain with
  | nil spos tpos =>
    refine ⟨rfl, rfl, ?_⟩
    simp [packLoop, applyOut]
  | @cons spos tpos spos1 tpos1 spos' tpos' c cs hstep hrest ih =>
    obtain ⟨h1, h2, h3, h4, h5⟩ := hstep
    obtain ⟨ihd, ihc, iho⟩ := ih
    have hadd63 : c.add < I64H := by omega
    have hcopy63 : c.copy < I64H := by omega
    have hwa : wrapAdd spos c.add = spos + c.add := by
      unfold wrapAdd U64
      simp only [I64H] at hs63
      omega
    have hsp : wrapAdd (spos + c.add) (i64AsU64 c.seek) = spos1 := by
      have hstep' : wrapAdd (wrapAdd spos c.add) (i64AsU64 c.seek) = spos1 :=
        parPos_step hs63 h1 h4 h5
      rwa [hwa] at hstep'
    have hswin_len : ((s.drop spos).take c.add).length = c.add := by
      simp only [List.length_take, List.length_drop]
      omega
    have htwin_len : ((t.drop tpos).take c.add).length = c.add := by
      simp only [List.length_take, List.length_drop]
      omega
    have hdb : (if c.add > 0 then packDeltaLoop s t bsize c.add spos tpos
        else []) =
        List.zipWith byteSub ((s.drop spos).take c.add)
          ((t.drop tpos).take c.add) := by
      by_cases hpos : c.add > 0
      · rw [if_pos hpos, packDeltaLoop_eq s t bsize hb]
      · rw [if_neg hpos, show c.add = 0 from by omega]
        simp
    have heb : (if c.copy > 0 then
        sliceRange t (tpos + c.add) (tpos + c.add + c.copy) else []) =
        (t.drop (tpos + c.add)).take c.copy := by
      by_cases hpos : c.copy > 0
      · rw [if_pos hpos, sliceRange_window]
      · rw [if_neg hpos, show c.copy = 0 from by omega]
        simp
    have hdb_len : (List.zipWith byteSub ((s.drop spos).take c.add)
        ((t.drop tpos).take c.add)).length = c.add := by
      rw [List.length_zipWith, hswin_len, htwin_len, Nat.min_self]
    have heb_len : ((t.drop (tpos + c.add)).take c.copy).length = c.copy := by
      simp only [List.length_take, List.length_drop]
      omega
    have hunf : packLoop s t bsize (c :: cs) spos tpos =
        ((encode_int (toI64 c.add) ++ encode_int (toI64 c.copy) ++
            encode_int c.seek) ++ (packLoop s t bsize cs spos1 tpos1).1,
          List.zipWith byteSub ((s.drop spos).take c.add)
              ((t.drop tpos).take c.add) ++
            (packLoop s t bsize cs spos1 tpos1).2.1,
          (t.drop (tpos + c.add)).take c.copy ++
            (packLoop s t bsize cs spos1 tpos1).2.2) := by
      simp only [packLoop]
      rw [hdb, heb, hsp, ← h3]
    have hseek_lo : -(9223372036854775807 : Int) ≤ c.seek := by
      simp only [I64H] at hs63
      omega
    have hseek_hi : c.seek ≤ 9223372036854775807 := by
      simp only [I64H] at hs63
      omega
    have htn : ((spos : Int) + (c.add : Int) + c.seek).toNat = spos1 := by
      omega
    rw [hunf]
    simp only []
    refine ⟨?_, ?_, ?_⟩
    · refine decodeCtrls_build _ _ _ _ (by simp [encode_int_length]) ?_ ihd
      rw [ctlDecode_encode c.add c.copy c.seek _ hadd63 hcopy63 hseek_lo
        hseek_hi]
    · simp only [consistentFrom, Bool.and_eq_true, decide_eq_true_eq]
      refine ⟨⟨⟨⟨⟨h1, ?_⟩, ?_⟩, ?_⟩, ?_⟩, ?_⟩
      · simp only [List.length_append, hdb_len]
        omega
      · simp only [List.length_append, heb_len]
        omega
      · rw [← h4]
        omega
      · rw [← h4]
        simp only [I64H] at hs63
        simp only [U64]
        push_cast
        omega
      · rw [htn]
        have hl1 : (List.zipWith byteSub ((s.drop spos).take c.add)
              ((t.drop tpos).take c.add) ++
            (packLoop s t bsize cs spos1 tpos1).2.1).length - c.add =
            (packLoop s t bsize cs spos1 tpos1).2.1.length := by
          simp only [List.length_append, hdb_len]
          omega
        have hl2 : ((t.drop (tpos + c.add)).take c.copy ++
            (packLoop s t bsize cs spos1 tpos1).2.2).length - c.copy =
            (packLoop s t bsize cs spos1 tpos1).2.2.length := by
          simp only [List.length_append, heb_len]
          omega
        rw [hl1, hl2]
        exact ihc
    · simp only [applyOut]
      have hT1 : (List.zipWith byteSub ((s.drop spos).take c.add)
            ((t.drop tpos).take c.add) ++
          (packLoop s t bsize cs spos1 tpos1).2.1).take c.add =
          List.zipWith byteSub ((s.drop spos).take c.add)
            ((t.drop tpos).take c.add) := List.take_left' hdb_len
      have hD1 : (List.zipWith byteSub ((s.drop spos).take c.add)
            ((t.drop tpos).take c.add) ++
          (packLoop s t bsize cs spos1 tpos1).2.1).drop c.add =
          (packLoop s t bsize cs spos1 tpos1).2.1 := List.drop_left' hdb_len
      have hT2 : ((t.drop (tpos + c.add)).take c.copy ++
          (packLoop s t bsize cs spos1 tpos1).2.2).take c.copy =
          (t.drop (tpos + c.add)).take c.copy := List.take_left' heb_len
      have hD2 : ((t.drop (tpos + c.add)).take c.copy ++
          (packLoop s t bsize cs spos1 tpos1).2.2).drop c.copy =
          (packLoop s t bsize cs spos1 tpos1).2.2 := List.drop_left' heb_len
      have hby : List.zipWith byteAdd ((s.drop spos).take c.add)
          (List.zipWith byteSub ((s.drop spos).take c.add)
            ((t.drop tpos).take c.add)) = (t.drop tpos).take c.add := by
        refine zipWith_byteAdd_byteSub _ _ ?_ ?_
        · intro b hbm
          exact ht256 b (List.mem_of_mem_drop (List.mem_of_mem_take hbm))
        · rw [hswin_len, htwin_len]
      have htpos1 : tpos1 ≤ tpos' := by
        have := hrest.tpos_eq
        omega
      have hsplit : (t.drop tpos).take (tpos' - tpos) =
          (t.drop tpos).take c.add ++ ((t.drop (tpos + c.add)).take c.copy ++
            (t.drop tpos1).take (tpos' - tpos1)) := by
        rw [show tpos' - tpos = c.add + (c.copy + (tpos' - tpos1)) from by
          omega, drop_take_split, drop_take_split, ← h3]
      rw [hT1, hD1, hT2, hD2, htn, iho, hby, hsplit]
      simp [List.append_assoc]

/-- Both branches of `Bsdiff::compare` (single walker / parallel
scheduler) produce one valid control chain from `(0, 0)` to
`(spos', |T|)`. -/
theorem compareControls_chain (s t : List Nat) (cfg : BsdiffConfig)
    (sl : List Nat → Nat × Nat) (hsl : SearchLcpSpec s sl)
    (hs63 : s.length < I64H) :
    ∃ spos', spos' ≤ s.length ∧
      ValidChain s t 0 0 (compareControls s t cfg sl) spos' t.length := by
  unfold compareControls
  split
  · exact saControls_chain ⟨s, t, sl, cfg.small_match, cfg.mismatch_count,
      cfg.long_suffix⟩ hsl hs63
  · refine ⟨0, Nat.zero_le _, ?_⟩
    refine parCompute_chain s t sl hsl hs63 _ _ _ _ ?_
    calc 1 ≤ MIN_CHUNK := by norm_num [MIN_CHUNK]
      _ ≤ compareChunk t.length cfg := le_max_right _ _

/-- The full round trip for one configuration: the patch `compare`
produces, parsed and applied to S by the `bspatch` context, succeeds and
reconstructs exactly T (returning `|T|` bytes written). -/
theorem round_trip_aux (s t : List Nat) (cfg : BsdiffConfig)
    (sl : List Nat → Nat × Nat) (hsl : SearchLcpSpec s sl)
    (hs63 : s.length < I64H) (ht63 : t.length < I64H)
    (ht256 : ∀ b ∈ t, b < 256)
    (compress decompress : List Nat → List Nat)
    (hcd : ∀ l, decompress (compress l) = l)
    (hbuf : 1 ≤ cfg.buffer_size)
    (hc : (compress (packLoop s t cfg.buffer_size
      (compareControls s t cfg sl) 0 0).1).length < I64H)
    (hd : (compress (packLoop s t cfg.buffer_size
      (compareControls s t cfg sl) 0 0).2.1).length < I64H)
    (hU : 32 + (compress (packLoop s t cfg.buffer_size
        (compareControls s t cfg sl) 0 0).1).length +
      (compress (packLoop s t cfg.buffer_size
        (compareControls s t cfg sl) 0 0).2.1).length < U64)
    (bsize : Nat) (hbs : 1 ≤ bsize) :
    bspatchApply (compare s t cfg sl compress).1 s decompress bsize =
      Except.ok (t, t.length) := by
  obtain ⟨spos', hsp, hchain⟩ := compareControls_chain s t cfg sl hsl hs63
  obtain ⟨hdec, hcons, hout⟩ := chain_pack_apply s t cfg.buffer_size hbuf
    hs63 ht63 ht256 hchain
  have hsum : sumAddCopy (compareControls s t cfg sl) = t.length := by
    have := hchain.tpos_eq
    omega
  have hpatch : (compare s t cfg sl compress).1 =
      magicBytes ++ (encode_int (toI64 (compress (packLoop s t
          cfg.buffer_size (compareControls s t cfg sl) 0 0).1).length) ++
        (encode_int (toI64 (compress (packLoop s t cfg.buffer_size
          (compareControls s t cfg sl) 0 0).2.1).length) ++
        (encode_int (toI64 t.length) ++
        (compress (packLoop s t cfg.buffer_size
          (compareControls s t cfg sl) 0 0).1 ++
        (compress (packLoop s t cfg.buffer_size
          (compareControls s t cfg sl) 0 0).2.1 ++
        compress (packLoop s t cfg.buffer_size
          (compareControls s t cfg sl) 0 0).2.2))))) := by
    unfold compare pack
    simp [List.append_assoc]
  have hparse : parse (compare s t cfg sl compress).1 =
      ParseResult.ok ⟨t.length,
        compress (packLoop s t cfg.buffer_size
          (compareControls s t cfg sl) 0 0).1,
        compress (packLoop s t cfg.buffer_size
          (compareControls s t cfg sl) 0 0).2.1,
        compress (packLoop s t cfg.buffer_size
          (compareControls s t cfg sl) 0 0).2.2⟩ := by
    rw [hpatch]
    exact parse_header _ _ _ _ ht63 hc hd hU
  unfold bspatchApply
  rw [hparse]
  simp only []
  simp only [hcd]
  unfold ctxApply
  have happ := applyGo_spec s bsize hbs (compareControls s t cfg sl)
    (packLoop s t cfg.buffer_size (compareControls s t cfg sl) 0 0).1
    ((packLoop s t cfg.buffer_size
      (compareControls s t cfg sl) 0 0).1.length + 1)
    ⟨0, [], [],
      (packLoop s t cfg.buffer_size (compareControls s t cfg sl) 0 0).2.1,
      (packLoop s t cfg.buffer_size (compareControls s t cfg sl) 0 0).2.2, 0⟩
    (by omega) hdec (by simp only []; exact hcons)
    (by simp only [List.length_nil]; omega) (by norm_num [U64])
  rw [happ]
  simp only []
  have hout' : applyOut s (compareControls s t cfg sl) 0
      (packLoop s t cfg.buffer_size (compareControls s t cfg sl) 0 0).2.1
      (packLoop s t cfg.buffer_size (compareControls s t cfg sl) 0 0).2.2 =
      t := by
    rw [hout]
    simp
  have htot : wrapAdd 0 (sumAddCopy (compareControls s t cfg sl)) =
      t.length := by
    rw [hsum]
    unfold wrapAdd U64
    simp only [I64H] at ht63
    omega
  rw [hout', htot]
  simp

/-- C1: for every source S with |S| ≤ MAX_LENGTH and every target T of
byte values, under the suffix-index contract and a lossless compressor
(`decompress ∘ compress = id`, modelling bzip2 at any compression level —
the level only parameterizes the abstract compressor), applying the patch
produced by `compare(S, T)` to S reconstructs T exactly and reports `|T|`
bytes written, for every configuration — hence for every `small_match`,
every compression level, and every parallel scheme (`Never`, `ChunkSize`,
`NumJobs`, `Auto`); and (second conjunct) any other configuration yields a
patch whose application gives the same result T.  Machine-size
hypotheses: `|T| < 2^63`, compressed control/delta sections shorter than
`2^63` with their header sum below `2^64`, and positive buffer sizes. -/
theorem compare_apply_roundtrip (s t : List Nat) (cfg : BsdiffConfig)
    (sl : List Nat → Nat × Nat) (hsl : SearchLcpSpec s sl)
    (hmax : s.length ≤ MAX_LENGTH) (ht63 : t.length < I64H)
    (ht256 : ∀ b ∈ t, b < 256)
    (compress decompress : List Nat → List Nat)
    (hcd : ∀ l, decompress (compress l) = l)
    (hbuf : 1 ≤ cfg.buffer_size)
    (hc : (compress (packLoop s t cfg.buffer_size
      (compareControls s t cfg sl) 0 0).1).length < I64H)
    (hd : (compress (packLoop s t cfg.buffer_size
      (compareControls s t cfg sl) 0 0).2.1).length < I64H)
    (hU : 32 + (compress (packLoop s t cfg.buffer_size
        (compareControls s t cfg sl) 0 0).1).length +
      (compress (packLoop s t cfg.buffer_size
        (compareControls s t cfg sl) 0 0).2.1).length < U64)
    (bsize : Nat) (hbs : 1 ≤ bsize) :
    bspatchApply (compare s t cfg sl compress).1 s decompress bsize =
        Except.ok (t, t.length) ∧
      ∀ cfg2 : BsdiffConfig, 1 ≤ cfg2.buffer_size →
        (compress (packLoop s t cfg2.buffer_size
          (compareControls s t cfg2 sl) 0 0).1).length < I64H →
        (compress (packLoop s t cfg2.buffer_size
          (compareControls s t cfg2 sl) 0 0).2.1).length < I64H →
        32 + (compress (packLoop s t cfg2.buffer_size
            (compareControls s t cfg2 sl) 0 0).1).length +
          (compress (packLoop s t cfg2.buffer_size
            (compareControls s t cfg2 sl) 0 0).2.1).length < U64 →
        bspatchApply (compare s t cfg2 sl compress).1 s decompress bsize =
          bspatchApply (compare s t cfg sl compress).1 s decompress bsize := by
  have hs63 : s.length < I64H := by
    simp only [MAX_LENGTH] at hmax
    simp only [I64H]
    omega
  have h1 := round_trip_aux s t cfg sl hsl hs63 ht63 ht256 compress
    decompress hcd hbuf hc hd hU bsize hbs
  refine ⟨h1, fun cfg2 hb2 hc2 hd2 hU2 => ?_⟩
  rw [h1, round_trip_aux s t cfg2 sl hsl hs63 ht63 ht256 compress
    decompress hcd hb2 hc2 hd2 hU2 bsize hbs]

/-- Witness for C1: `S = []`, `T = [5, 6, 7]`, default configuration,
identity compressor, applier buffer 128.  The patch round-trips to
`([5, 6, 7], 3)`. -/
theorem compare_apply_roundtrip_witness :
    (SearchLcpSpec [] (fun _ => (0, 0)) ∧
      ([] : List Nat).length ≤ MAX_LENGTH ∧
      ([5, 6, 7] : List Nat).length < I64H ∧
      (∀ b ∈ ([5, 6, 7] : List Nat), b < 256) ∧
      (∀ l : List Nat, id (id l) = l) ∧
      1 ≤ defaultConfig.buffer_size ∧
      (id (packLoop [] [5, 6, 7] defaultConfig.buffer_size
        (compareControls [] [5, 6, 7] defaultConfig (fun _ => (0, 0))) 0
        0).1).length < I64H ∧
      (id (packLoop [] [5, 6, 7] defaultConfig.buffer_size
        (compareControls [] [5, 6, 7] defaultConfig (fun _ => (0, 0))) 0
        0).2.1).length < I64H ∧
      32 + (id (packLoop [] [5, 6, 7] defaultConfig.buffer_size
          (compareControls [] [5, 6, 7] defaultConfig (fun _ => (0, 0))) 0
          0).1).length +
        (id (packLoop [] [5, 6, 7] defaultConfig.buffer_size
          (compareControls [] [5, 6, 7] defaultConfig (fun _ => (0, 0))) 0
          0).2.1).length < U64 ∧
      1 ≤ 128) ∧
    (bspatchApply (compare [] [5, 6, 7] defaultConfig (fun _ => (0, 0))
          id).1 [] id 128 =
        Except.ok (([5, 6, 7] : List Nat), ([5, 6, 7] : List Nat).length) ∧
      ∀ cfg2 : BsdiffConfig, 1 ≤ cfg2.buffer_size →
        (id (packLoop [] [5, 6, 7] cfg2.buffer_size
          (compareControls [] [5, 6, 7] cfg2 (fun _ => (0, 0))) 0
          0).1).length < I64H →
        (id (packLoop [] [5, 6, 7] cfg2.buffer_size
          (compareControls [] [5, 6, 7] cfg2 (fun _ => (0, 0))) 0
          0).2.1).length < I64H →
        32 + (id (packLoop [] [5, 6, 7] cfg2.buffer_size
            (compareControls [] [5, 6, 7] cfg2 (fun _ => (0, 0))) 0
            0).1).length +
          (id (packLoop [] [5, 6, 7] cfg2.buffer_size
            (compareControls [] [5, 6, 7] cfg2 (fun _ => (0, 0))) 0
            0).2.1).length < U64 →
        bspatchApply (compare [] [5, 6, 7] cfg2 (fun _ => (0, 0)) id).1
            [] id 128 =
          bspatchApply (compare [] [5, 6, 7] defaultConfig
            (fun _ => (0, 0)) id).1 [] id 128) := by
  have hsl : SearchLcpSpec [] (fun _ => (0, 0)) := by
    refine ⟨fun q => by simp, fun q => by simp, fun q => by simp,
      fun q => by simp, fun q p k hpk hkq hm => by simp at hpk ⊢; omega⟩
  exact ⟨⟨hsl, by norm_num [MAX_LENGTH], by norm_num [I64H], by decide,
      fun l => rfl, by decide, by decide, by decide, by decide, by norm_num⟩,
    compare_apply_roundtrip [] [5, 6, 7] defaultConfig (fun _ => (0, 0))
      hsl (by norm_num [MAX_LENGTH]) (by norm_num [I64H]) (by decide) id id
      (fun l => rfl) (by decide) (by decide) (by decide) (by decide) 128
      (by norm_num)⟩

end Qbsdiff
